import Mathlib

/-
Verification of the classification / matching / reconciliation core of the
moonstone-importer repository.

Strings are modelled as `List Char` (JS strings; all inputs exercised here are
BMP code points, where JS code units and code points coincide).  Spreadsheet
rows are lists of cells; a missing or out-of-range cell reads as the empty
string, mirroring `(row[i] || "")` in the source.

Sources embedded below:
  - src/src/utils/textUtils.ts            (normalizeText, countFilledFields)
  - src/src/utils/matchingUtils.ts        (findBestMatch, findMatchingReferrals)
  - src/src/processors/formClassifier.js  (classifyFormType, categorizeAllForms)
  - src/src/processors/founderProcessor.js (createReferralMapping,
      processSingleFounder, processFounders, buildFounderProperties)
  - src/src/processors/searcherProcessor.js (processSingleSearcher,
      buildSearcherProperties)
  - src/unnamed/part_010 (monolithic script: completion-percent computation)
-/

/-- Cells and rows.  A cell is a JS string; a row is a positional list of
cells, shorter rows standing for rows with empty trailing cells. -/
abbrev Cell : Type := List Char

abbrev SRow : Type := List Cell

/-- Read cell `i` of a row; absent cells read as the empty string, mirroring
the defensive `(row[i] || "")` access pattern of the source. -/
def cellAt (r : SRow) (i : Nat) : Cell := r.getD i []

/-- JS whitespace characters removed by `String.prototype.trim` (restricted to
the code points that can appear in this development). -/
def isJsSpace (c : Char) : Bool :=
  decide (c.toNat = 32 ∨ c.toNat = 9 ∨ c.toNat = 10 ∨ c.toNat = 13 ∨
          c.toNat = 11 ∨ c.toNat = 12)

/-- Lowercase ASCII letters and digits: the character class `[a-z0-9]` of the
normalisation regex in `normalizeText`. -/
def isLowerAlnum (c : Char) : Bool :=
  decide ((97 ≤ c.toNat ∧ c.toNat ≤ 122) ∨ (48 ≤ c.toNat ∧ c.toNat ≤ 57))

/-- JS `toLowerCase`, modelled on the ASCII range (the only range whose
lowercasing the proofs depend on); other code points are left unchanged. -/
def jsLowerChar (c : Char) : Char :=
  if 65 ≤ c.toNat ∧ c.toNat ≤ 90 then Char.ofNat (c.toNat + 32) else c

/-- Unicode combining diacritical marks: the `\p{Diacritic}` class of the
source, restricted to the combining-mark block U+0300 to U+036F exercised
here. -/
def isDiacritic (c : Char) : Bool :=
  decide (768 ≤ c.toNat ∧ c.toNat ≤ 879)

/-- NFKD decomposition (`String.prototype.normalize("NFKD")`), modelled by a
finite table: identity on ASCII (where NFKD is the identity), the
superscript and subscript digit glyphs decompose to ASCII digits, and a table
of precomposed accented letters decomposes to base letter plus combining
mark.  Other code points are left unchanged. -/
def nfkdChar (c : Char) : List Char :=
  if c.toNat < 128 then [c]
  else if c = '⁰' then ['0'] else if c = '¹' then ['1']
  else if c = '²' then ['2'] else if c = '³' then ['3']
  else if c = '⁴' then ['4'] else if c = '⁵' then ['5']
  else if c = '⁶' then ['6'] else if c = '⁷' then ['7']
  else if c = '⁸' then ['8'] else if c = '⁹' then ['9']
  else if c = '₀' then ['0'] else if c = '₁' then ['1']
  else if c = '₂' then ['2'] else if c = '₃' then ['3']
  else if c = '₄' then ['4'] else if c = '₅' then ['5']
  else if c = '₆' then ['6'] else if c = '₇' then ['7']
  else if c = '₈' then ['8'] else if c = '₉' then ['9']
  else if c = 'á' then ['a', '́'] else if c = 'à' then ['a', '̀']
  else if c = 'ä' then ['a', '̈'] else if c = 'â' then ['a', '̂']
  else if c = 'é' then ['e', '́'] else if c = 'è' then ['e', '̀']
  else if c = 'ë' then ['e', '̈'] else if c = 'ê' then ['e', '̂']
  else if c = 'í' then ['i', '́'] else if c = 'ó' then ['o', '́']
  else if c = 'ö' then ['o', '̈'] else if c = 'ú' then ['u', '́']
  else if c = 'ü' then ['u', '̈'] else if c = 'ñ' then ['n', '̃']
  else if c = 'ç' then ['c', '̧']
  else [c]

/-- The explicit superscript/subscript digit map of `normalizeText` (the
`digitMap` table together with its replacing regex); each of the twenty glyph
characters maps to its ASCII digit, all other characters are kept. -/
def digitReplChar (c : Char) : List Char :=
  if c.toNat < 128 then [c]
  else if c = '⁰' then ['0'] else if c = '¹' then ['1']
  else if c = '²' then ['2'] else if c = '³' then ['3']
  else if c = '⁴' then ['4'] else if c = '⁵' then ['5']
  else if c = '⁶' then ['6'] else if c = '⁷' then ['7']
  else if c = '⁸' then ['8'] else if c = '⁹' then ['9']
  else if c = '₀' then ['0'] else if c = '₁' then ['1']
  else if c = '₂' then ['2'] else if c = '₃' then ['3']
  else if c = '₄' then ['4'] else if c = '₅' then ['5']
  else if c = '₆' then ['6'] else if c = '₇' then ['7']
  else if c = '₈' then ['8'] else if c = '₉' then ['9']
  else [c]

/-- First half of the regex `replace(/[^a-z0-9]+/g, " ")`: every character
outside `[a-z0-9]` becomes a space. -/
def toSpaceChar (c : Char) : Char := if isLowerAlnum c then c else ' '

/-- Second half of the regex `replace(/[^a-z0-9]+/g, " ")`: a maximal run of
spaces produced by `toSpaceChar` collapses to a single space (the regex
replaces the whole run by one space). -/
def squeezeSpaces : List Char → List Char
  | [] => []
  | [c] => [c]
  | a :: b :: rest =>
      if a = ' ' ∧ b = ' ' then squeezeSpaces (b :: rest)
      else a :: squeezeSpaces (b :: rest)

/-- Drop leading JS whitespace (`trimStart`). -/
def trimLead (l : List Char) : List Char := l.dropWhile isJsSpace

/-- Drop trailing JS whitespace (`trimEnd`). -/
def trimTrail (l : List Char) : List Char := (l.reverse.dropWhile isJsSpace).reverse

/-- JS `String.prototype.trim`. -/
def jsTrim (l : List Char) : List Char := trimTrail (trimLead l)

/-- JS `toLowerCase` on a whole string. -/
def jsLower (l : List Char) : List Char := l.map jsLowerChar

/-- Body of `normalizeText` (src/src/utils/textUtils.ts line 44): lowercase,
NFKD-normalise, map special digit glyphs to ASCII digits, strip diacritics,
replace runs of non-alphanumerics by single spaces, and trim. -/
def normalizeCore (l : List Char) : List Char :=
  jsTrim (squeezeSpaces (((((l.map jsLowerChar).flatMap nfkdChar).flatMap
    digitReplChar).filter (fun c => !isDiacritic c)).map toSpaceChar))

/-- The function `normalizeText` of src/src/utils/textUtils.ts on a (non-null)
string: empty input short-circuits to the empty string (`if (!text) return ""`),
otherwise the normalisation pipeline runs. -/
def normalizeTextL (l : List Char) : List Char :=
  if l = [] then [] else normalizeCore l

/-- The function `normalizeText` including its nullable argument: `null` and
`undefined` (modelled by `none`) return the empty string. -/
def normalizeTextOpt : Option (List Char) → List Char
  | none => []
  | some l => normalizeTextL l

/-- Levenshtein edit distance, the function computed by the
`fastest-levenshtein` package's `distance` used throughout the source
(standard unit-cost edit distance, embedded as Mathlib's `levenshtein` with
the default cost structure). -/
def lev (xs ys : List Char) : Nat := levenshtein Levenshtein.defaultCost xs ys

/-- Score of a candidate against the target in `findBestMatch`: the
Levenshtein distance between the two normalised strings. -/
def scoreOf (t c : List Char) : Nat := lev (normalizeTextL t) (normalizeTextL c)

/-- Candidate loop of `findBestMatch` (src/src/utils/matchingUtils.ts line 33):
falsy candidates are skipped, and a candidate strictly improving on the best
score so far replaces the current best (`none` models the initial
`bestScore = Infinity`). -/
def fbmLoop (t : List Char) : List (List Char) → Option (List Char × Nat) → Option (List Char × Nat)
  | [], best => best
  | c :: cs, best =>
      if c = [] then fbmLoop t cs best
      else
        match best with
        | none => fbmLoop t cs (some (c, scoreOf t c))
        | some (b, bs) =>
            if scoreOf t c < bs then fbmLoop t cs (some (c, scoreOf t c))
            else fbmLoop t cs (some (b, bs))

/-- The function `findBestMatch` of src/src/utils/matchingUtils.ts: `null`
for a falsy target, otherwise the best-scoring candidate provided its score is
within `maxD`, else `null`. -/
def findBestMatch (t : List Char) (cands : List (List Char)) (maxD : Nat) : Option (List Char) :=
  if t = [] then none
  else
    match fbmLoop t cands none with
    | none => none
    | some (b, bs) => if bs ≤ maxD then some b else none

/-- The function `findMatchingReferrals` of src/src/utils/matchingUtils.ts:
for a truthy searcher name, the referral rows whose cell at `col` is truthy
and normalises to exactly the normalised searcher name. -/
def findMatchingReferrals (searcherName : List Char) (referralRows : List SRow) (col : Nat) : List SRow :=
  if searcherName = [] then []
  else
    referralRows.filter (fun row =>
      if cellAt row col = [] then false
      else decide (normalizeTextL (cellAt row col) = normalizeTextL searcherName))

/-- Keys of the data model (§3 of the spec): a key is a nonempty normalised
string, i.e. a nonempty fixed point of `normalizeText`.  The keys of a
referral index always have this shape. -/
def IsNormKey (s : List Char) : Prop := s ≠ [] ∧ normalizeTextL s = s

/-- Form categories assigned by the classifier
(src/src/processors/formClassifier.js). -/
inductive FormType where
  | founder
  | founderReferral
  | searcher
  | searcherReferral
  | unknown
deriving DecidableEq

/-- Intent string mapping to the founder category. -/
def founderIntentText : Cell :=
  "i am a founder and i want to take my startup to the moon.".toList

/-- Intent string mapping to the founder-referral category. -/
def founderReferralIntentText : Cell :=
  "i know an incredible founder, someone moonstone should get to know.".toList

/-- Intent string mapping to the searcher category. -/
def searcherIntentText : Cell :=
  "i am an entrepreneur and i want to be a searcher for moonstone's search fund.".toList

/-- Intent string mapping to the searcher-referral category. -/
def searcherReferralIntentText : Cell :=
  "i know an incredible entrepreneur, that would be a great searcher for moonstone's search fund.".toList

/-- Result of the bracket lookup `FORM_TYPE_MAPPINGS[formIntent]` on the
object literal: either one of the four own vocabulary entries, or a truthy
member inherited from `Object.prototype` (the literal is a plain object, so
bracket access walks the prototype chain). -/
inductive FormLookup where
  | formType (t : FormType)
  | protoMember (name : Cell)
deriving DecidableEq

/-- Property names inherited by a plain object literal from
`Object.prototype`; bracket access with any of these keys yields a truthy
function or object value rather than `undefined`. -/
def objectProtoProps : List Cell :=
  [("constructor" : String).toList, ("__proto__" : String).toList,
   ("hasOwnProperty" : String).toList, ("isPrototypeOf" : String).toList,
   ("propertyIsEnumerable" : String).toList, ("toLocaleString" : String).toList,
   ("toString" : String).toList, ("valueOf" : String).toList,
   ("__defineGetter__" : String).toList, ("__defineSetter__" : String).toList,
   ("__lookupGetter__" : String).toList, ("__lookupSetter__" : String).toList]

/-- The bracket lookup on the static vocabulary `FORM_TYPE_MAPPINGS` of
src/src/config/constants.ts: an own entry gives its category string, a key
naming an inherited `Object.prototype` property gives that truthy inherited
member, and any other key gives `undefined` (`none`). -/
def FORM_TYPE_MAPPINGS (s : Cell) : Option FormLookup :=
  if s = founderIntentText then some (.formType .founder)
  else if s = founderReferralIntentText then some (.formType .founderReferral)
  else if s = searcherIntentText then some (.formType .searcher)
  else if s = searcherReferralIntentText then some (.formType .searcherReferral)
  else if s ∈ objectProtoProps then some (.protoMember s)
  else none

/-- A JS value passed to the classifier: `null`/`undefined`, a non-array
value, or an actual row. -/
inductive RowVal where
  | nullish
  | nonArray
  | arr (r : SRow)
deriving DecidableEq

/-- The designated intent cell of a row, prepared as in
`classifyFormType`: `(row[3] || "").trim().toLowerCase()`. -/
def formIntentOf (r : SRow) : Cell := jsLower (jsTrim (cellAt r 3))

/-- The value returned by `classifyFormType` of
src/src/processors/formClassifier.js: either one of the five category
strings, or — when the intent names an inherited `Object.prototype`
property — the truthy inherited member itself, which the function returns
unchanged (`if (formType) return formType` has no own-property guard). -/
inductive ClassifyRet where
  | str (t : FormType)
  | inherited (name : Cell)
deriving DecidableEq

/-- The function `classifyFormType` of src/src/processors/formClassifier.js,
returning its exact JS return value: nullish or non-array input gives the
string `unknown`; otherwise the intent cell is looked up in the vocabulary
object — an own entry is returned, a truthy inherited `Object.prototype`
member is returned as-is, and only an `undefined` lookup falls through to
the string `unknown`. -/
def classifyFormTypeRet : RowVal → ClassifyRet
  | .nullish => .str .unknown
  | .nonArray => .str .unknown
  | .arr r =>
      match FORM_TYPE_MAPPINGS (formIntentOf r) with
      | some (.formType t) => .str t
      | some (.protoMember n) => .inherited n
      | none => .str .unknown

/-- The category bucket the `categorizeAllForms` switch assigns to a
`classifyFormType` return value: category strings select their bucket, and
any non-category value (an inherited member) falls into the switch's
`default` branch, the unknown bucket. -/
def bucketOf : ClassifyRet → FormType
  | .str t => t
  | .inherited _ => .unknown

/-- The category a row is assigned by the program: `classifyFormType`'s
return value as consumed by the `categorizeAllForms` switch. -/
def classifyFormType (v : RowVal) : FormType := bucketOf (classifyFormTypeRet v)

/-- The five category buckets produced by `categorizeAllForms`. -/
structure Categories where
  founders : List RowVal
  founderReferrals : List RowVal
  searchers : List RowVal
  searcherReferrals : List RowVal
  unknown : List RowVal
deriving DecidableEq

/-- The function `categorizeAllForms` of src/src/processors/formClassifier.js:
each row goes to the single bucket selected by `classifyFormType`, preserving
input order within each bucket. -/
def categorizeAllForms : List RowVal → Categories
  | [] => ⟨[], [], [], [], []⟩
  | r :: rest =>
      let c := categorizeAllForms rest
      match classifyFormType r with
      | .founder => ⟨r :: c.founders, c.founderReferrals, c.searchers, c.searcherReferrals, c.unknown⟩
      | .founderReferral => ⟨c.founders, r :: c.founderReferrals, c.searchers, c.searcherReferrals, c.unknown⟩
      | .searcher => ⟨c.founders, c.founderReferrals, r :: c.searchers, c.searcherReferrals, c.unknown⟩
      | .searcherReferral => ⟨c.founders, c.founderReferrals, c.searchers, r :: c.searcherReferrals, c.unknown⟩
      | .unknown => ⟨c.founders, c.founderReferrals, c.searchers, c.searcherReferrals, r :: c.unknown⟩

/-- A referral bucket of the referral index: the first-seen display name and
the raw referral rows grouped under one normalised key
(`createReferralMapping` in src/src/processors/founderProcessor.js). -/
structure Bucket where
  displayName : Cell
  referrals : List SRow
deriving DecidableEq

/-- Append a referral row to the bucket of `key`, creating the bucket at the
end of the mapping if absent (JS object insertion-order semantics). -/
def addToBucket : List (Cell × Bucket) → Cell → Cell → SRow → List (Cell × Bucket)
  | [], key, name, row => [(key, ⟨name, [row]⟩)]
  | (k, b) :: rest, key, name, row =>
      if k = key then (k, ⟨b.displayName, b.referrals ++ [row]⟩) :: rest
      else (k, b) :: addToBucket rest key name row

/-- The function `createReferralMapping` of
src/src/processors/founderProcessor.js: for each referral row, the startup
name is read from cell 9 and trimmed; empty names and names normalising to
the empty string are skipped; otherwise the row joins the bucket of the
normalised key, whose display name is the first-seen raw trimmed value. -/
def createReferralMapping (referralRows : List SRow) : List (Cell × Bucket) :=
  referralRows.foldl (fun m row =>
    let startupName := jsTrim (cellAt row 9)
    if startupName = [] then m
    else
      let key := normalizeTextL startupName
      if key = [] then m
      else addToBucket m key startupName row) []

/-- Deletion of a key from the referral mapping (`delete referralMapping[k]`),
removing its entry and keeping the order of the remaining entries. -/
def eraseKey (m : List (Cell × Bucket)) (key : Cell) : List (Cell × Bucket) :=
  m.filter (fun p => decide (p.1 ≠ key))

/-- Trimmed startup name of a founder row (cell 73),
as read at the top of `processSingleFounder`. -/
def founderName (row : SRow) : Cell := jsTrim (cellAt row 73)

/-- Normalised key of a founder row (`const founderKey = normalizeText(startupName)`). -/
def founderKeyOf (row : SRow) : Cell := normalizeTextL (founderName row)

/-- The effective key of `processSingleFounder`:
`findBestMatch(founderKey, Object.keys(referralMapping)) || founderKey`. -/
def founderMatchedKey (m : List (Cell × Bucket)) (row : SRow) : Cell :=
  (findBestMatch (founderKeyOf row) (m.map Prod.fst) 2).getD (founderKeyOf row)

/-- The referrals attached to a founder row:
`referralMapping[matchedKey]?.referrals || []`. -/
def founderRefs (m : List (Cell × Bucket)) (row : SRow) : List SRow :=
  match List.lookup (founderMatchedKey m row) m with
  | some b => b.referrals
  | none => []

/-- The referral mapping after one founder row is processed: the matched key
is deleted exactly when referrals were attached
(`if (matchedReferrals.length > 0) delete referralMapping[matchedKey]`). -/
def founderStepMap (m : List (Cell × Bucket)) (row : SRow) : List (Cell × Bucket) :=
  if founderRefs m row = [] then m else eraseKey m (founderMatchedKey m row)

/-- Reconciliation record of one founder row: the row, its display name, the
claimed key and the attached referral rows. -/
structure Claimed where
  row : SRow
  startupName : Cell
  matchedKey : Cell
  matchedReferrals : List SRow
deriving DecidableEq

/-- Aggregate state of a founder-processing run: the `results` counters of
`processFounders`, the reconciliation records, the error log, and the
referral mapping remaining after the loop. -/
structure FounderRun where
  processed : Nat
  errors : Nat
  claims : List Claimed
  log : List Cell
  mapping : List (Cell × Bucket)
deriving DecidableEq

/-- Tag of the per-item error log line of `processFounders`
(`console.error` with message appended after a space). -/
def founderErrTag : Cell := "❌ Error processing founder:".toList

/-- One error log line of the `processFounders` catch block. -/
def founderErrLog (msg : Cell) : Cell := founderErrTag ++ ' ' :: msg

/-- Message of the error thrown by `processSingleFounder` when the startup
name cell is empty. -/
def missingNameMsg : Cell := "Founder missing startup name".toList

/-- The per-founder loop of `processFounders`
(src/src/processors/founderProcessor.js lines 57 to 74): each row is
reconciled inside a try block; a missing startup name throws before any
matching; external document-store failures (modelled by the oracle `fail`,
giving the error message of the failing row) throw after the claim step; a
caught error increments `errors` and appends a log line, a success increments
`processed`; the loop always continues with the remaining rows. -/
def runFounders (fail : SRow → Option Cell) : List SRow → List (Cell × Bucket) → FounderRun
  | [], m => ⟨0, 0, [], [], m⟩
  | row :: rest, m =>
      if founderName row = [] then
        let st := runFounders fail rest m
        ⟨st.processed, st.errors + 1, st.claims, founderErrLog missingNameMsg :: st.log, st.mapping⟩
      else
        let st := runFounders fail rest (founderStepMap m row)
        let cl : Claimed := ⟨row, founderName row, founderMatchedKey m row, founderRefs m row⟩
        match fail row with
        | some msg => ⟨st.processed, st.errors + 1, cl :: st.claims, founderErrLog msg :: st.log, st.mapping⟩
        | none => ⟨st.processed + 1, st.errors, cl :: st.claims, st.log, st.mapping⟩

/-- The function `processFounders`: build the referral mapping from the
referral rows, then run the per-founder loop over the founder rows. -/
def processFounders (fail : SRow → Option Cell) (founderRows referralRows : List SRow) : FounderRun :=
  runFounders fail founderRows (createReferralMapping referralRows)

/-- Keys claimed by a list of reconciliation records: the matched keys of the
records that attached at least one referral row. -/
def claimedOf (cls : List Claimed) : List Cell :=
  (cls.filter (fun c => !c.matchedReferrals.isEmpty)).map Claimed.matchedKey

/-- Keys claimed during a run: the matched keys of the reconciliation records
that attached at least one referral row. -/
def claimedKeys (st : FounderRun) : List Cell := claimedOf st.claims

/-- Referral matching of `processSingleSearcher`
(src/src/processors/searcherProcessor.js line 105): the searcher name is the
trimmed cell 37, and referrals are matched by `findMatchingReferrals` against
cell 22 of the referral rows. -/
def searcherMatchedReferrals (searcherRow : SRow) (allReferrals : List SRow) : List SRow :=
  findMatchingReferrals (jsTrim (cellAt searcherRow 37)) allReferrals 22

/-- Trimmed searcher name of a searcher row (cell 37), as read at the top of
`processSingleSearcher`. -/
def searcherNameOf (row : SRow) : Cell := jsTrim (cellAt row 37)

/-- Reconciliation record of one searcher row: the row, its display name and
the referral rows matched to it. -/
structure SearcherClaimed where
  row : SRow
  searcherName : Cell
  matchedReferrals : List SRow
deriving DecidableEq

/-- Aggregate state of a searcher-processing run: the `results` counters of
`processSearchers`, the reconciliation records and the error log. -/
structure SearcherRun where
  processed : Nat
  errors : Nat
  claims : List SearcherClaimed
  log : List Cell
deriving DecidableEq

/-- Tag of the per-item error log line of `processSearchers`
(`console.error` with message appended after a space). -/
def searcherErrTag : Cell := "❌ Error processing searcher:".toList

/-- One error log line of the `processSearchers` catch block. -/
def searcherErrLog (msg : Cell) : Cell := searcherErrTag ++ ' ' :: msg

/-- Message of the error thrown by `processSingleSearcher` when the searcher
name cell is empty. -/
def missingSearcherNameMsg : Cell := "Searcher missing name".toList

/-- The per-searcher loop of `processSearchers`
(src/src/processors/searcherProcessor.js lines 53 to 71): each row is
reconciled inside a try block; a missing searcher name throws before any
matching; external document-store failures (modelled by the oracle `fail`)
throw after matching; a caught error increments `errors` and appends a log
line, a success increments `processed`; the loop always continues with the
remaining rows. -/
def runSearchers (fail : SRow → Option Cell) (allReferrals : List SRow) : List SRow → SearcherRun
  | [] => ⟨0, 0, [], []⟩
  | row :: rest =>
      if searcherNameOf row = [] then
        let st := runSearchers fail allReferrals rest
        ⟨st.processed, st.errors + 1, st.claims,
         searcherErrLog missingSearcherNameMsg :: st.log⟩
      else
        let st := runSearchers fail allReferrals rest
        let cl : SearcherClaimed :=
          ⟨row, searcherNameOf row, searcherMatchedReferrals row allReferrals⟩
        match fail row with
        | some msg => ⟨st.processed, st.errors + 1, cl :: st.claims, searcherErrLog msg :: st.log⟩
        | none => ⟨st.processed + 1, st.errors, cl :: st.claims, st.log⟩

/-- The endorsement-tier label of `buildFounderProperties`
(src/src/processors/founderProcessor.js lines 254 to 256): 0 referrals give
no label, counts 1 to 4 index the ordinal-label array, 5 or more give the
ceiling label. -/
def founderStatusName (referralCount : Nat) : Option Cell :=
  if referralCount = 0 then none
  else if 5 ≤ referralCount then some "V+ Endorsements".toList
  else some ([("I Endorsement" : String).toList, ("II Endorsements" : String).toList,
    ("III Endorsements" : String).toList, ("IV Endorsements" : String).toList].getD
      (referralCount - 1) [])

/-- The referral-tier label of `buildSearcherProperties`
(src/src/processors/searcherProcessor.js lines 207 to 211). -/
def searcherStatusName (referralCount : Nat) : Option Cell :=
  if referralCount = 0 then none
  else if 5 ≤ referralCount then some "V+ Referrals".toList
  else some ([("I Referral" : String).toList, ("II Referrals" : String).toList,
    ("III Referrals" : String).toList, ("IV Referrals" : String).toList].getD
      (referralCount - 1) [])

/-- The helper `getFilledCount` of the monolithic script
(src/unnamed/part_010 line 2210): count the indices whose cell trims to a
truthy string. -/
def getFilledCount (row : SRow) (indices : List Nat) : Nat :=
  indices.foldl (fun count i => count + if jsTrim (cellAt row i) = [] then 0 else 1) 0

/-- Decimal digit-string parser: `some n` on a nonempty all-digit string. -/
def parseNatDigits (l : List Char) : Option Nat :=
  if l = [] then none
  else l.foldl (fun acc c =>
    match acc with
    | none => none
    | some n =>
        if 48 ≤ c.toNat ∧ c.toNat ≤ 57 then some (n * 10 + (c.toNat - 48)) else none)
    (some 0)

/-- Declared team-member count, `Number(row[118]) || 0` of the monolithic
script, modelled from `Number` restricted to decimal integer strings (other
strings give `NaN`, which `|| 0` maps to 0). -/
def teamMemberCount (row : SRow) : Nat :=
  (parseNatDigits (jsTrim (cellAt row 118))).getD 0

/-- Required-field indices of a founder row in the monolithic script
(src/unnamed/part_010 lines 2213 to 2220): the fixed range 66 to 115, plus
one 11-cell block starting at 119 + 11·i per declared team member. -/
def founderRelevantIndices (row : SRow) : List Nat :=
  ((List.range 50).map (fun i => 66 + i)) ++
    (List.range (teamMemberCount row)).flatMap
      (fun i => (List.range 11).map (fun j => 119 + i * 11 + j))

/-- JS `Math.round` on an exact rational (floats are modelled exactly;
`Math.round` rounds half up). -/
def jsRound (q : ℚ) : ℤ := ⌊q + 1 / 2⌋

/-- Completion percentage of a founder row in the monolithic script
(src/unnamed/part_010 lines 2222 to 2225):
`totalCount === 0 ? 0 : Math.round((answeredCount / totalCount) * 100)`. -/
def completionPercent (row : SRow) : ℤ :=
  let idx := founderRelevantIndices row
  let answered := getFilledCount row idx
  let total := idx.length
  if total = 0 then 0 else jsRound ((answered : ℚ) / (total : ℚ) * 100)

example : normalizeTextL ['A', 'c', 'm', 'e', ' ', 'C', 'o', '.'] =
    ['a', 'c', 'm', 'e', ' ', 'c', 'o'] := by decide

example : normalizeTextL ['C', 'O', '₂', '!', 'Z'] = ['c', 'o', '2', ' ', 'z'] := by decide

example : lev ['a', 'b'] ['a', 'c', 'b'] = 1 := by decide

example : findBestMatch ['a', 'b'] [['x', 'y', 'z'], ['a', 'c']] 2 = some ['a', 'c'] := by decide

/-- C7: the tier label is a function of the matched-referral count alone:
count 0 gives no label, counts 1 to 4 give the ordinal labels with their
suffixes, and every count of 5 or more gives the single ceiling label; this
holds for both the founder and the searcher variant. -/
theorem tierLabel_table :
    (founderStatusName 0 = none ∧ searcherStatusName 0 = none) ∧
    (founderStatusName 1 = some "I Endorsement".toList ∧
     founderStatusName 2 = some "II Endorsements".toList ∧
     founderStatusName 3 = some "III Endorsements".toList ∧
     founderStatusName 4 = some "IV Endorsements".toList) ∧
    (searcherStatusName 1 = some "I Referral".toList ∧
     searcherStatusName 2 = some "II Referrals".toList ∧
     searcherStatusName 3 = some "III Referrals".toList ∧
     searcherStatusName 4 = some "IV Referrals".toList) ∧
    (∀ n : Nat, 5 ≤ n →
      founderStatusName n = some "V+ Endorsements".toList ∧
      searcherStatusName n = some "V+ Referrals".toList) := by
  refine ⟨by decide, by decide, by decide, ?_⟩
  intro n hn
  constructor
  · rw [founderStatusName, if_neg (by omega), if_pos hn]
  · rw [searcherStatusName, if_neg (by omega), if_pos hn]

/-- Witness for C7: the boundary cases, counts 5 and 7 both give the ceiling
label. -/
theorem tierLabel_table_witness :
    founderStatusName 5 = some "V+ Endorsements".toList ∧
    searcherStatusName 7 = some "V+ Referrals".toList :=
  ⟨(tierLabel_table.2.2.2 5 (by decide)).1, (tierLabel_table.2.2.2 7 (by decide)).2⟩

/-- C9: `categorizeAllForms` assigns each row to exactly the bucket selected
by `classifyFormType`, each bucket is the order-preserving filter of the
input by its category, and the bucket sizes sum to the input row count. -/
theorem categorizeAllForms_partition (rows : List RowVal) :
    (categorizeAllForms rows).founders =
      rows.filter (fun r => decide (classifyFormType r = FormType.founder)) ∧
    (categorizeAllForms rows).founderReferrals =
      rows.filter (fun r => decide (classifyFormType r = FormType.founderReferral)) ∧
    (categorizeAllForms rows).searchers =
      rows.filter (fun r => decide (classifyFormType r = FormType.searcher)) ∧
    (categorizeAllForms rows).searcherReferrals =
      rows.filter (fun r => decide (classifyFormType r = FormType.searcherReferral)) ∧
    (categorizeAllForms rows).unknown =
      rows.filter (fun r => decide (classifyFormType r = FormType.unknown)) ∧
    (categorizeAllForms rows).founders.length +
      (categorizeAllForms rows).founderReferrals.length +
      (categorizeAllForms rows).searchers.length +
      (categorizeAllForms rows).searcherReferrals.length +
      (categorizeAllForms rows).unknown.length = rows.length := by
  induction rows with
  | nil => simp [categorizeAllForms]
  | cons r rest ih =>
    obtain ⟨h1, h2, h3, h4, h5, hlen⟩ := ih
    rw [h1, h2, h3, h4, h5] at hlen
    cases hc : classifyFormType r <;>
      simp [categorizeAllForms, hc, h1, h2, h3, h4, h5, List.filter_cons] <;>
      omega

/-- An inherited-member lookup result names an `Object.prototype` property,
and the name is the looked-up key. -/
theorem FORM_TYPE_MAPPINGS_protoMember {s n : Cell}
    (h : FORM_TYPE_MAPPINGS s = some (.protoMember n)) :
    n ∈ objectProtoProps ∧ n = s := by
  rw [FORM_TYPE_MAPPINGS] at h
  by_cases h1 : s = founderIntentText
  · rw [if_pos h1] at h
    simp at h
  rw [if_neg h1] at h
  by_cases h2 : s = founderReferralIntentText
  · rw [if_pos h2] at h
    simp at h
  rw [if_neg h2] at h
  by_cases h3 : s = searcherIntentText
  · rw [if_pos h3] at h
    simp at h
  rw [if_neg h3] at h
  by_cases h4 : s = searcherReferralIntentText
  · rw [if_pos h4] at h
    simp at h
  rw [if_neg h4] at h
  by_cases h5 : s ∈ objectProtoProps
  · rw [if_pos h5] at h
    rw [Option.some.injEq, FormLookup.protoMember.injEq] at h
    exact ⟨h ▸ h5, h.symm⟩
  · rw [if_neg h5] at h
    cases h

/-- C10 counterexample: the intent string `constructor` is not in the
vocabulary, yet the bracket lookup finds the inherited
`Object.prototype.constructor`, which is truthy, so `classifyFormType`
returns that inherited value instead of the string `unknown`. -/
theorem classify_proto_inheritance_cex :
    formIntentOf [[], [], [], ("constructor" : String).toList] =
      ("constructor" : String).toList ∧
    formIntentOf [[], [], [], ("constructor" : String).toList] ≠ founderIntentText ∧
    formIntentOf [[], [], [], ("constructor" : String).toList] ≠ founderReferralIntentText ∧
    formIntentOf [[], [], [], ("constructor" : String).toList] ≠ searcherIntentText ∧
    formIntentOf [[], [], [], ("constructor" : String).toList] ≠ searcherReferralIntentText ∧
    classifyFormTypeRet (RowVal.arr [[], [], [], ("constructor" : String).toList]) =
      ClassifyRet.inherited (("constructor" : String).toList) ∧
    classifyFormTypeRet (RowVal.arr [[], [], [], ("constructor" : String).toList]) ≠
      ClassifyRet.str FormType.unknown :=
  ⟨by decide, by decide, by decide, by decide, by decide, by decide, by decide⟩

/-- C10 (amended): the classifier is total: it never throws (a total
function in this embedding, every access in the source being guarded by
`(row[3] || "")`), and nullish values, non-array values, rows whose intent
cell is absent or trims to the empty string, and rows whose intent misses
both the vocabulary and the inherited `Object.prototype` properties all
return the string `unknown`.  The exception forced by the counterexample: an
intent naming an inherited `Object.prototype` property (such as
`constructor`) makes the function return that truthy inherited member
instead of `unknown`; the categorisation switch nevertheless routes such a
row to the unknown bucket. -/
theorem classifyRet_total_on_malformed :
    classifyFormTypeRet RowVal.nullish = ClassifyRet.str FormType.unknown ∧
    classifyFormTypeRet RowVal.nonArray = ClassifyRet.str FormType.unknown ∧
    (∀ r : SRow, jsTrim (cellAt r 3) = [] →
      classifyFormTypeRet (RowVal.arr r) = ClassifyRet.str FormType.unknown) ∧
    (∀ r : SRow, FORM_TYPE_MAPPINGS (formIntentOf r) = none →
      classifyFormTypeRet (RowVal.arr r) = ClassifyRet.str FormType.unknown) ∧
    (∀ (r : SRow) (n : Cell), classifyFormTypeRet (RowVal.arr r) = ClassifyRet.inherited n →
      n ∈ objectProtoProps ∧ classifyFormType (RowVal.arr r) = FormType.unknown) := by
  refine ⟨rfl, rfl, ?_, ?_, ?_⟩
  · intro r h
    have hintent : formIntentOf r = [] := by simp [formIntentOf, h, jsLower]
    simp only [classifyFormTypeRet, hintent]
    decide
  · intro r h
    simp [classifyFormTypeRet, h]
  · intro r n h
    rw [classifyFormTypeRet] at h
    rw [classifyFormType, classifyFormTypeRet]
    cases hm : FORM_TYPE_MAPPINGS (formIntentOf r) with
    | none => rw [hm] at h; cases h
    | some fl =>
      rw [hm] at h
      cases fl with
      | formType t => cases h
      | protoMember n' =>
        rw [ClassifyRet.inherited.injEq] at h
        exact ⟨h ▸ (FORM_TYPE_MAPPINGS_protoMember hm).1, rfl⟩

/-- Witness for C10: a row with an out-of-vocabulary, non-inherited intent
cell and a row with no cells at all both return the string `unknown`, and
the inherited-lookup row is routed to the unknown bucket. -/
theorem classifyRet_total_on_malformed_witness :
    classifyFormTypeRet (RowVal.arr [[], [], [], ['h', 'i']]) =
      ClassifyRet.str FormType.unknown ∧
    classifyFormTypeRet (RowVal.arr []) = ClassifyRet.str FormType.unknown ∧
    (("constructor" : String).toList ∈ objectProtoProps ∧
      classifyFormType (RowVal.arr [[], [], [], ("constructor" : String).toList]) =
        FormType.unknown) :=
  ⟨classifyRet_total_on_malformed.2.2.2.1 [[], [], [], ['h', 'i']] (by decide),
   classifyRet_total_on_malformed.2.2.1 [] (by decide),
   classifyRet_total_on_malformed.2.2.2.2 [[], [], [], ("constructor" : String).toList]
     (("constructor" : String).toList) (by decide)⟩

/-- The edit distance of a list to itself is zero. -/
theorem lev_self (xs : List Char) : lev xs xs = 0 := by
  induction xs with
  | nil => simp [lev]
  | cons x xs ih =>
    simp only [lev, levenshtein_cons_cons] at *
    simp [inf_eq_min]
    omega

/-- Invariant of the candidate loop of `findBestMatch`, for candidate lists
without falsy entries: the loop returns a best pair, which is either the
incoming accumulator (when no candidate strictly improves on it) or the first
candidate attaining the minimum score, every earlier candidate scoring
strictly worse. -/
theorem fbmLoop_spec (t : List Char) (cs : List (List Char)) :
    ∀ (b0 : List Char) (s0 : Nat), (∀ c ∈ cs, c ≠ []) →
    ∃ r sr, fbmLoop t cs (some (b0, s0)) = some (r, sr) ∧
      ((r = b0 ∧ sr = s0 ∧ ∀ c ∈ cs, s0 ≤ scoreOf t c) ∨
       (sr < s0 ∧ ∃ pre post, cs = pre ++ r :: post ∧ sr = scoreOf t r ∧
          (∀ c ∈ pre, sr < scoreOf t c) ∧ (∀ c ∈ post, sr ≤ scoreOf t c))) := by
  induction cs with
  | nil =>
    intro b0 s0 _
    exact ⟨b0, s0, rfl, Or.inl ⟨rfl, rfl, by simp⟩⟩
  | cons c cs ih =>
    intro b0 s0 hcs
    have hc : c ≠ [] := hcs c (by simp)
    have hcs' : ∀ x ∈ cs, x ≠ [] := fun x hx => hcs x (by simp [hx])
    simp only [fbmLoop, if_neg hc]
    by_cases himp : scoreOf t c < s0
    · rw [if_pos himp]
      obtain ⟨r, sr, heq, hspec⟩ := ih c (scoreOf t c) hcs'
      refine ⟨r, sr, heq, Or.inr ?_⟩
      rcases hspec with ⟨hrb, hrs, hall⟩ | ⟨hlt, pre, post, hdec, hsr, hpre, hpost⟩
      · subst hrb
        subst hrs
        exact ⟨himp, [], cs, by simp, rfl, by simp, hall⟩
      · refine ⟨by omega, c :: pre, post, by simp [hdec], hsr, ?_, hpost⟩
        intro x hx
        rcases List.mem_cons.mp hx with h | h
        · subst h; omega
        · exact hpre x h
    · rw [if_neg himp]
      obtain ⟨r, sr, heq, hspec⟩ := ih b0 s0 hcs'
      refine ⟨r, sr, heq, ?_⟩
      rcases hspec with ⟨hrb, hrs, hall⟩ | ⟨hlt, pre, post, hdec, hsr, hpre, hpost⟩
      · refine Or.inl ⟨hrb, hrs, ?_⟩
        intro x hx
        rcases List.mem_cons.mp hx with h | h
        · subst h; omega
        · exact hall x h
      · refine Or.inr ⟨hlt, c :: pre, post, by simp [hdec], hsr, ?_, hpost⟩
        intro x hx
        rcases List.mem_cons.mp hx with h | h
        · subst h; omega
        · exact hpre x h

/-- Characterisation of `findBestMatch` on a truthy target and candidate keys
(all truthy): either no candidate scores within `maxD` and the result is
`none`, or the result is the first candidate attaining the minimum score,
which is within `maxD`. -/
theorem findBestMatch_cases (t : List Char) (cands : List (List Char)) (maxD : Nat)
    (ht : t ≠ []) (hcands : ∀ c ∈ cands, c ≠ []) :
    (findBestMatch t cands maxD = none ∧ ∀ c ∈ cands, maxD < scoreOf t c) ∨
    (∃ pre r post, cands = pre ++ r :: post ∧ findBestMatch t cands maxD = some r ∧
      scoreOf t r ≤ maxD ∧ (∀ c ∈ cands, scoreOf t r ≤ scoreOf t c) ∧
      (∀ c ∈ pre, scoreOf t r < scoreOf t c)) := by
  cases cands with
  | nil =>
    left
    constructor
    · simp [findBestMatch, if_neg ht, fbmLoop]
    · simp
  | cons c cs =>
    have hc : c ≠ [] := hcands c (by simp)
    have hcs' : ∀ x ∈ cs, x ≠ [] := fun x hx => hcands x (by simp [hx])
    obtain ⟨r, sr, heq, hspec⟩ := fbmLoop_spec t cs c (scoreOf t c) hcs'
    have hrun : fbmLoop t (c :: cs) none = some (r, sr) := by
      simp only [fbmLoop, if_neg hc]
      exact heq
    have hmain : ∃ pre post, c :: cs = pre ++ r :: post ∧ sr = scoreOf t r ∧
        (∀ x ∈ c :: cs, sr ≤ scoreOf t x) ∧ (∀ x ∈ pre, sr < scoreOf t x) := by
      rcases hspec with ⟨hrb, hrs, hall⟩ | ⟨hlt, pre, post, hdec, hsr, hpre, hpost⟩
      · subst hrb
        refine ⟨[], cs, by simp, hrs, ?_, by simp⟩
        intro x hx
        rcases List.mem_cons.mp hx with h | h
        · subst h; omega
        · have := hall x h; omega
      · refine ⟨c :: pre, post, by simp [hdec], hsr, ?_, ?_⟩
        · intro x hx
          rcases List.mem_cons.mp hx with h | h
          · subst h; omega
          · rw [hdec] at h
            rcases List.mem_append.mp h with h' | h'
            · have := hpre x h'; omega
            · rcases List.mem_cons.mp h' with h'' | h''
              · subst h''; omega
              · exact hpost x h''
        · intro x hx
          rcases List.mem_cons.mp hx with h | h
          · subst h; omega
          · exact hpre x h
    obtain ⟨pre, post, hdec, hsr, hall, hpre⟩ := hmain
    by_cases hle : sr ≤ maxD
    · right
      refine ⟨pre, r, post, hdec, ?_, by omega, ?_, ?_⟩
      · simp [findBestMatch, if_neg ht, hrun, hle]
      · intro x hx
        have := hall x hx
        omega
      · intro x hx
        have := hpre x hx
        omega
    · left
      constructor
      · simp only [findBestMatch, if_neg ht, hrun]
        simp [hle]
      · intro x hx
        have := hall x hx
        omega

/-- C4: on normalised keys, `findBestMatch` returns the candidate of minimal
Levenshtein distance to the target whenever that minimum is within
`maxDistance`, breaking ties in favour of the first candidate in iteration
order (every earlier candidate scores strictly worse), and returns `null`
when every candidate exceeds the threshold.  Keys are the nonempty
`normalizeText`-fixed strings of the data model, so the distance computed on
the normalised forms is the distance on the keys themselves. -/
theorem findBestMatch_minimal (t : List Char) (cands : List (List Char)) (maxD : Nat)
    (ht : IsNormKey t) (hcands : ∀ c ∈ cands, IsNormKey c) :
    ((∃ c ∈ cands, lev t c ≤ maxD) →
      ∃ pre r post, cands = pre ++ r :: post ∧ findBestMatch t cands maxD = some r ∧
        lev t r ≤ maxD ∧ (∀ c ∈ cands, lev t r ≤ lev t c) ∧
        (∀ c ∈ pre, lev t r < lev t c)) ∧
    ((∀ c ∈ cands, maxD < lev t c) → findBestMatch t cands maxD = none) := by
  have hscore : ∀ c ∈ cands, scoreOf t c = lev t c := by
    intro c hcmem
    simp [scoreOf, ht.2, (hcands c hcmem).2]
  have hcne : ∀ c ∈ cands, c ≠ [] := fun c hcmem => (hcands c hcmem).1
  rcases findBestMatch_cases t cands maxD ht.1 hcne with ⟨hnone, hfar⟩ | hfound
  · constructor
    · intro ⟨c, hcmem, hcle⟩
      have := hfar c hcmem
      rw [hscore c hcmem] at this
      omega
    · intro _
      exact hnone
  · obtain ⟨pre, r, post, hdec, hres, hle, hmin, hstrict⟩ := hfound
    have hrmem : r ∈ cands := by rw [hdec]; simp
    constructor
    · intro _
      refine ⟨pre, r, post, hdec, hres, ?_, ?_, ?_⟩
      · rw [hscore r hrmem] at hle
        exact hle
      · intro c hcmem
        have := hmin c hcmem
        rw [hscore r hrmem, hscore c hcmem] at this
        exact this
      · intro c hcmem
        have hcm : c ∈ cands := by rw [hdec]; exact List.mem_append.mpr (Or.inl hcmem)
        have := hstrict c hcmem
        rw [hscore r hrmem, hscore c hcm] at this
        exact this
    · intro hfar
      have := hfar r hrmem
      rw [hscore r hrmem] at hle
      omega

/-- Witness for C4: target key `ab` against candidates `xyz` and `ac`; the
distance-1 candidate `ac` is found, and for the same candidates every
threshold-exceeded case returns `none`. -/
theorem findBestMatch_minimal_witness :
    ((∃ c ∈ [['x', 'y', 'z'], ['a', 'c']], lev ['a', 'b'] c ≤ 2) →
      ∃ pre r post, [['x', 'y', 'z'], ['a', 'c']] = pre ++ r :: post ∧
        findBestMatch ['a', 'b'] [['x', 'y', 'z'], ['a', 'c']] 2 = some r ∧
        lev ['a', 'b'] r ≤ 2 ∧
        (∀ c ∈ [['x', 'y', 'z'], ['a', 'c']], lev ['a', 'b'] r ≤ lev ['a', 'b'] c) ∧
        (∀ c ∈ pre, lev ['a', 'b'] r < lev ['a', 'b'] c)) ∧
    ((∀ c ∈ [['x', 'y', 'z'], ['a', 'c']], 2 < lev ['a', 'b'] c) →
      findBestMatch ['a', 'b'] [['x', 'y', 'z'], ['a', 'c']] 2 = none) :=
  findBestMatch_minimal ['a', 'b'] [['x', 'y', 'z'], ['a', 'c']] 2
    (by constructor <;> decide)
    (by intro c hc; fin_cases hc <;> exact ⟨by decide, by decide⟩)

/-- C5: a target key occurring verbatim among the candidate keys is matched
at distance 0; in particular `findBestMatch k [k] 2 = some k` for every
nonempty `k`. -/
theorem findBestMatch_verbatim (k : List Char) (cands : List (List Char))
    (hk : k ≠ []) (hcands : ∀ c ∈ cands, c ≠ []) (hmem : k ∈ cands) :
    (∃ c, findBestMatch k cands 2 = some c ∧ scoreOf k c = 0) ∧
    findBestMatch k [k] 2 = some k := by
  have h0 : scoreOf k k = 0 := by simp [scoreOf, lev_self]
  constructor
  · rcases findBestMatch_cases k cands 2 hk hcands with ⟨_, hfar⟩ | hfound
    · have := hfar k hmem
      omega
    · obtain ⟨pre, r, post, hdec, hres, _, hmin, _⟩ := hfound
      have := hmin k hmem
      exact ⟨r, hres, by omega⟩
  · simp [findBestMatch, if_neg hk, fbmLoop, hk, h0]

/-- Witness for C5: the key `ab` present among the candidates is matched at
distance 0, and the singleton self-match returns the key itself. -/
theorem findBestMatch_verbatim_witness :
    ((∃ c, findBestMatch ['a', 'b'] [['x'], ['a', 'b']] 2 = some c ∧
      scoreOf ['a', 'b'] c = 0) ∧
    findBestMatch ['a', 'b'] [['a', 'b']] 2 = some ['a', 'b']) :=
  findBestMatch_verbatim ['a', 'b'] [['x'], ['a', 'b']] (by decide) (by decide) (by decide)

/-- Elements of a squeezed list come from the original list. -/
theorem mem_squeezeSpaces : ∀ (l : List Char) (a : Char), a ∈ squeezeSpaces l → a ∈ l
  | [], a => by simp [squeezeSpaces]
  | [c], a => by simp [squeezeSpaces]
  | b :: c :: rest, a => by
      simp only [squeezeSpaces]
      by_cases h : b = ' ' ∧ c = ' '
      · rw [if_pos h]
        intro hm
        exact List.mem_cons_of_mem b (mem_squeezeSpaces (c :: rest) a hm)
      · rw [if_neg h]
        intro hm
        rcases List.mem_cons.mp hm with h' | h'
        · simp [h']
        · exact List.mem_cons_of_mem b (mem_squeezeSpaces (c :: rest) a h')

/-- Squeezing spaces preserves the head of the list. -/
theorem head?_squeezeSpaces : ∀ (l : List Char), (squeezeSpaces l).head? = l.head?
  | [] => rfl
  | [_] => rfl
  | b :: c :: rest => by
      simp only [squeezeSpaces]
      by_cases h : b = ' ' ∧ c = ' '
      · rw [if_pos h, head?_squeezeSpaces (c :: rest)]
        simp [h.1, h.2]
      · rw [if_neg h]
        rfl

/-- A squeezed list has no two adjacent spaces. -/
theorem chain'_squeezeSpaces :
    ∀ (l : List Char), List.Chain' (fun a b => ¬(a = ' ' ∧ b = ' ')) (squeezeSpaces l)
  | [] => by simp [squeezeSpaces]
  | [_] => by simp [squeezeSpaces]
  | b :: c :: rest => by
      simp only [squeezeSpaces]
      by_cases h : b = ' ' ∧ c = ' '
      · rw [if_pos h]
        exact chain'_squeezeSpaces (c :: rest)
      · rw [if_neg h]
        rw [List.chain'_cons']
        refine ⟨?_, chain'_squeezeSpaces (c :: rest)⟩
        intro y hy
        rw [head?_squeezeSpaces (c :: rest)] at hy
        simp only [List.head?_cons, Option.mem_def, Option.some.injEq] at hy
        subst hy
        exact h

/-- A list with no two adjacent spaces squeezes to itself. -/
theorem squeezeSpaces_eq_self :
    ∀ (l : List Char), List.Chain' (fun a b => ¬(a = ' ' ∧ b = ' ')) l → squeezeSpaces l = l
  | [], _ => rfl
  | [_], _ => rfl
  | b :: c :: rest, h => by
      rw [List.chain'_cons] at h
      simp only [squeezeSpaces]
      rw [if_neg h.1, squeezeSpaces_eq_self (c :: rest) h.2]

/-- Elements surviving `dropWhile` come from the original list. -/
theorem mem_dropWhile_sub {p : Char → Bool} :
    ∀ (l : List Char) (a : Char), a ∈ List.dropWhile p l → a ∈ l
  | [], a => by simp
  | b :: l, a => by
      rw [List.dropWhile_cons]
      split
      · intro h
        exact List.mem_cons_of_mem b (mem_dropWhile_sub l a h)
      · exact id

/-- The head of a `dropWhile` result does not satisfy the predicate. -/
theorem head?_dropWhile_not {p : Char → Bool} :
    ∀ (l : List Char) (a : Char), (List.dropWhile p l).head? = some a → p a = false
  | [], a => by simp
  | b :: l, a => by
      rw [List.dropWhile_cons]
      split
      · exact head?_dropWhile_not l a
      · rename_i hpb
        intro heq
        simp only [List.head?_cons, Option.some.injEq] at heq
        subst heq
        exact Bool.not_eq_true _ ▸ eq_false_of_ne_true hpb

/-- `dropWhile` preserves chains (it returns a contiguous tail). -/
theorem chain'_dropWhile {R : Char → Char → Prop} {p : Char → Bool} :
    ∀ (l : List Char), List.Chain' R l → List.Chain' R (List.dropWhile p l)
  | [], _ => by simp
  | b :: l, h => by
      rw [List.dropWhile_cons]
      split
      · exact chain'_dropWhile l h.tail
      · exact h

/-- Decomposition of `trimTrail`: the trimmed list is an initial segment of
the original list. -/
theorem trimTrail_append (l : List Char) :
    trimTrail l ++ (l.reverse.takeWhile isJsSpace).reverse = l := by
  have hsplit : l.reverse.takeWhile isJsSpace ++ l.reverse.dropWhile isJsSpace = l.reverse :=
    List.takeWhile_append_dropWhile isJsSpace l.reverse
  calc trimTrail l ++ (l.reverse.takeWhile isJsSpace).reverse
      = (l.reverse.takeWhile isJsSpace ++ l.reverse.dropWhile isJsSpace).reverse := by
        rw [List.reverse_append]
        rfl
    _ = l.reverse.reverse := by rw [hsplit]
    _ = l := List.reverse_reverse l

/-- The head of a trailing-trimmed list is the head of the original list. -/
theorem trimTrail_head {l : List Char} {a : Char}
    (h : (trimTrail l).head? = some a) : l.head? = some a := by
  have := trimTrail_append l
  calc l.head? = (trimTrail l ++ (l.reverse.takeWhile isJsSpace).reverse).head? := by rw [this]
    _ = some a := by
        rcases htl : trimTrail l with _ | ⟨x, xs⟩
        · rw [htl] at h
          simp at h
        · rw [htl] at h
          simp only [List.head?_cons, Option.some.injEq] at h
          subst h
          simp

/-- A canonical character (lowercase alphanumeric or space) is a space or
lies in the lowercase-letter or digit code-point range. -/
theorem canon_ranges {c : Char} (h : isLowerAlnum c = true ∨ c = ' ') :
    c = ' ' ∨ (97 ≤ c.toNat ∧ c.toNat ≤ 122) ∨ (48 ≤ c.toNat ∧ c.toNat ≤ 57) := by
  rcases h with h | h
  · simp only [isLowerAlnum, decide_eq_true_eq] at h
    right
    exact h
  · left
    exact h

/-- Lowercasing fixes canonical characters. -/
theorem jsLowerChar_canon {c : Char} (h : isLowerAlnum c = true ∨ c = ' ') :
    jsLowerChar c = c := by
  rcases canon_ranges h with h | h
  · subst h
    decide
  · rw [jsLowerChar, if_neg (by omega)]

/-- NFKD fixes canonical characters (they are ASCII). -/
theorem nfkdChar_canon {c : Char} (h : isLowerAlnum c = true ∨ c = ' ') :
    nfkdChar c = [c] := by
  rcases canon_ranges h with h | h
  · subst h
    decide
  · rw [nfkdChar, if_pos (by omega)]

/-- The digit-glyph map fixes canonical characters. -/
theorem digitReplChar_canon {c : Char} (h : isLowerAlnum c = true ∨ c = ' ') :
    digitReplChar c = [c] := by
  rcases canon_ranges h with h | h
  · subst h
    decide
  · rw [digitReplChar, if_pos (by omega)]

/-- Canonical characters are not diacritics. -/
theorem isDiacritic_canon {c : Char} (h : isLowerAlnum c = true ∨ c = ' ') :
    isDiacritic c = false := by
  rcases canon_ranges h with h | h
  · subst h
    decide
  · simp only [isDiacritic, decide_eq_false_iff_not]
    omega

/-- The space-replacement map fixes canonical characters. -/
theorem toSpaceChar_canon_id {c : Char} (h : isLowerAlnum c = true ∨ c = ' ') :
    toSpaceChar c = c := by
  rcases h with h | h
  · rw [toSpaceChar, if_pos h]
  · subst h
    decide

/-- A canonical character other than a space is not JS whitespace. -/
theorem isJsSpace_canon {c : Char} (h : isLowerAlnum c = true ∨ c = ' ') (hne : c ≠ ' ') :
    isJsSpace c = false := by
  rcases canon_ranges h with h' | h'
  · exact absurd h' hne
  · simp only [isJsSpace, decide_eq_false_iff_not]
    omega

/-- A pointwise-fixed map is the identity. -/
theorem map_eq_self_of {f : Char → Char} :
    ∀ (l : List Char), (∀ c ∈ l, f c = c) → l.map f = l := by
  intro l h
  induction l with
  | nil => rfl
  | cons a t ih =>
    simp only [List.map_cons, h a (by simp), List.cons.injEq, true_and]
    exact ih (fun c hc => h c (by simp [hc]))

/-- A pointwise-singleton flat map is the identity. -/
theorem flatMap_eq_self_of {f : Char → List Char} :
    ∀ (l : List Char), (∀ c ∈ l, f c = [c]) → l.flatMap f = l := by
  intro l h
  induction l with
  | nil => rfl
  | cons a t ih =>
    simp only [List.flatMap_cons, h a (by simp)]
    simp only [List.singleton_append, List.cons.injEq, true_and]
    exact ih (fun c hc => h c (by simp [hc]))

/-- Membership is preserved downward through `trimLead`. -/
theorem mem_trimLead {l : List Char} {a : Char} (h : a ∈ trimLead l) : a ∈ l :=
  mem_dropWhile_sub l a h

/-- Membership is preserved downward through `trimTrail`. -/
theorem mem_trimTrail {l : List Char} {a : Char} (h : a ∈ trimTrail l) : a ∈ l := by
  unfold trimTrail at h
  rw [List.mem_reverse] at h
  exact List.mem_reverse.mp (mem_dropWhile_sub _ _ h)

/-- Membership is preserved downward through `jsTrim`. -/
theorem mem_jsTrim {l : List Char} {a : Char} (h : a ∈ jsTrim l) : a ∈ l :=
  mem_trimLead (mem_trimTrail h)

/-- Trailing trim preserves chains (it keeps a contiguous initial segment). -/
theorem chain'_trimTrail {R : Char → Char → Prop} (l : List Char)
    (h : List.Chain' R l) : List.Chain' R (trimTrail l) := by
  unfold trimTrail
  rw [List.chain'_reverse]
  apply chain'_dropWhile
  exact List.chain'_reverse.mpr h

/-- Trimming preserves chains. -/
theorem chain'_jsTrim {R : Char → Char → Prop} (l : List Char)
    (h : List.Chain' R l) : List.Chain' R (jsTrim l) :=
  chain'_trimTrail _ (chain'_dropWhile l h)

/-- The last character of a trailing-trimmed list is not JS whitespace. -/
theorem trimTrail_getLast {l : List Char} {a : Char}
    (h : (trimTrail l).getLast? = some a) : isJsSpace a = false := by
  unfold trimTrail at h
  rw [List.getLast?_reverse] at h
  exact head?_dropWhile_not _ _ h

/-- Characterisation of `normalizeCore` output: only lowercase alphanumerics
and spaces, no two adjacent spaces, and no leading or trailing space. -/
theorem normalizeCore_canonical (l : List Char) :
    (∀ c ∈ normalizeCore l, isLowerAlnum c = true ∨ c = ' ') ∧
    List.Chain' (fun a b => ¬(a = ' ' ∧ b = ' ')) (normalizeCore l) ∧
    (∀ a, (normalizeCore l).head? = some a → a ≠ ' ') ∧
    (∀ a, (normalizeCore l).getLast? = some a → a ≠ ' ') := by
  refine ⟨?_, ?_, ?_, ?_⟩
  · intro c hc
    have hs : c ∈ ((((l.map jsLowerChar).flatMap nfkdChar).flatMap
        digitReplChar).filter (fun c => !isDiacritic c)).map toSpaceChar :=
      mem_squeezeSpaces _ c (mem_jsTrim hc)
    obtain ⟨x, _, hx⟩ := List.mem_map.mp hs
    subst hx
    rw [toSpaceChar]
    split
    · left
      assumption
    · right
      rfl
  · exact chain'_jsTrim _ (chain'_squeezeSpaces _)
  · intro a ha
    have h1 : (trimLead (squeezeSpaces (((((l.map jsLowerChar).flatMap nfkdChar).flatMap
        digitReplChar).filter (fun c => !isDiacritic c)).map toSpaceChar))).head? = some a :=
      trimTrail_head ha
    have h2 : isJsSpace a = false := head?_dropWhile_not _ _ h1
    intro hsp
    subst hsp
    exact absurd h2 (by decide)
  · intro a ha
    have h2 : isJsSpace a = false := trimTrail_getLast ha
    intro hsp
    subst hsp
    exact absurd h2 (by decide)

/-- A canonical string trims to itself. -/
theorem jsTrim_eq_self (r : List Char)
    (hmem : ∀ c ∈ r, isLowerAlnum c = true ∨ c = ' ')
    (hhead : ∀ a, r.head? = some a → a ≠ ' ')
    (hlast : ∀ a, r.getLast? = some a → a ≠ ' ') :
    jsTrim r = r := by
  have hlead : trimLead r = r := by
    cases r with
    | nil => rfl
    | cons a t =>
      have hf : isJsSpace a = false :=
        isJsSpace_canon (hmem a (by simp)) (hhead a rfl)
      rw [trimLead, List.dropWhile_cons, hf]
      simp
  rw [jsTrim, hlead]
  unfold trimTrail
  have hdw : List.dropWhile isJsSpace r.reverse = r.reverse := by
    cases hr : r.reverse with
    | nil => rfl
    | cons a t =>
      have hamem : a ∈ r := List.mem_reverse.mp (by rw [hr]; simp)
      have hane : a ≠ ' ' := hlast a (by rw [← List.head?_reverse, hr]; rfl)
      have hf : isJsSpace a = false := isJsSpace_canon (hmem a hamem) hane
      rw [List.dropWhile_cons, hf]
      simp
  rw [hdw, List.reverse_reverse]

/-- A canonical string is a fixed point of the whole normalisation body. -/
theorem normalizeCore_eq_self (r : List Char)
    (hmem : ∀ c ∈ r, isLowerAlnum c = true ∨ c = ' ')
    (hchain : List.Chain' (fun a b => ¬(a = ' ' ∧ b = ' ')) r)
    (hhead : ∀ a, r.head? = some a → a ≠ ' ')
    (hlast : ∀ a, r.getLast? = some a → a ≠ ' ') :
    normalizeCore r = r := by
  rw [normalizeCore]
  rw [map_eq_self_of r (fun c hc => jsLowerChar_canon (hmem c hc))]
  rw [flatMap_eq_self_of r (fun c hc => nfkdChar_canon (hmem c hc))]
  rw [flatMap_eq_self_of r (fun c hc => digitReplChar_canon (hmem c hc))]
  rw [List.filter_eq_self.mpr (fun c hc => by rw [isDiacritic_canon (hmem c hc)]; rfl)]
  rw [map_eq_self_of r (fun c hc => toSpaceChar_canon_id (hmem c hc))]
  rw [squeezeSpaces_eq_self r hchain]
  exact jsTrim_eq_self r hmem hhead hlast

/-- The normaliser is a projection: applying it twice equals applying it
once. -/
theorem normalizeTextL_idem (l : List Char) :
    normalizeTextL (normalizeTextL l) = normalizeTextL l := by
  by_cases hl : l = []
  · subst hl
    rfl
  · have hval : normalizeTextL l = normalizeCore l := by rw [normalizeTextL, if_neg hl]
    by_cases hres : normalizeTextL l = []
    · rw [hres]
      rfl
    · rw [normalizeTextL, if_neg hres, hval]
      rw [hval] at hres
      obtain ⟨hmem, hchain, hhead, hlast⟩ := normalizeCore_canonical l
      exact normalizeCore_eq_self (normalizeCore l) hmem hchain hhead hlast

/-- C8: the text normaliser is idempotent, and null and empty input both map
to the empty string: for every nullable string `s`,
`normalizeText(normalizeText(s)) = normalizeText(s)`. -/
theorem normalizeText_idempotent :
    (∀ s : Option (List Char), normalizeTextL (normalizeTextOpt s) = normalizeTextOpt s) ∧
    normalizeTextOpt none = [] ∧ normalizeTextOpt (some []) = [] := by
  refine ⟨?_, rfl, rfl⟩
  intro s
  cases s with
  | none => rfl
  | some l => exact normalizeTextL_idem l

/-- Lookup at the head of the mapping. -/
theorem lookup_cons_hit {k k' : Cell} {b : Bucket} {rest : List (Cell × Bucket)}
    (h : k' = k) : List.lookup k ((k', b) :: rest) = some b := by
  rw [List.lookup_cons]
  have hb : (k == k') = true := by simp [h]
  rw [hb]

/-- Lookup skipping a mismatched head of the mapping. -/
theorem lookup_cons_miss {k k' : Cell} {b : Bucket} {rest : List (Cell × Bucket)}
    (h : k' ≠ k) : List.lookup k ((k', b) :: rest) = List.lookup k rest := by
  rw [List.lookup_cons]
  have hb : (k == k') = false := by
    simp only [beq_eq_false_iff_ne, ne_eq]
    exact fun he => h he.symm
  rw [hb]

/-- A successful lookup means the key occurs among the mapping's keys. -/
theorem lookup_mem_keys {m : List (Cell × Bucket)} {k : Cell} {b : Bucket}
    (h : List.lookup k m = some b) : k ∈ m.map Prod.fst := by
  induction m with
  | nil => rw [List.lookup_nil] at h; cases h
  | cons p rest ih =>
    obtain ⟨k', b'⟩ := p
    by_cases hk : k' = k
    · rw [List.map_cons]
      exact hk ▸ List.mem_cons_self _ _
    · rw [lookup_cons_miss hk] at h
      rw [List.map_cons]
      exact List.mem_cons_of_mem _ (ih h)

/-- A key among the mapping's keys looks up to some bucket. -/
theorem keys_mem_lookup {m : List (Cell × Bucket)} {k : Cell}
    (h : k ∈ m.map Prod.fst) : ∃ b, List.lookup k m = some b := by
  induction m with
  | nil => simp at h
  | cons p rest ih =>
    obtain ⟨k', b'⟩ := p
    by_cases hk : k' = k
    · exact ⟨b', lookup_cons_hit hk⟩
    · rw [List.map_cons, List.mem_cons] at h
      rcases h with h | h
      · exact absurd h.symm hk
      · obtain ⟨b, hb⟩ := ih h
        exact ⟨b, by rw [lookup_cons_miss hk]; exact hb⟩

/-- After deleting a key, looking it up fails. -/
theorem lookup_eraseKey (m : List (Cell × Bucket)) (k : Cell) :
    List.lookup k (eraseKey m k) = none := by
  induction m with
  | nil => rfl
  | cons p rest ih =>
    obtain ⟨k', b'⟩ := p
    rw [eraseKey, List.filter_cons]
    by_cases hk : k' = k
    · rw [if_neg (by simp [hk])]
      exact ih
    · rw [if_pos (by simp [hk])]
      rw [lookup_cons_miss hk]
      exact ih

/-- The keys of `eraseKey m k` are the keys of `m` other than `k`. -/
theorem mem_keys_eraseKey {m : List (Cell × Bucket)} {k k' : Cell}
    (h : k' ∈ (eraseKey m k).map Prod.fst) : k' ∈ m.map Prod.fst ∧ k' ≠ k := by
  obtain ⟨p, hp, hpk⟩ := List.mem_map.mp h
  rw [eraseKey] at hp
  have := List.mem_filter.mp hp
  refine ⟨List.mem_map.mpr ⟨p, this.1, hpk⟩, ?_⟩
  have hne := of_decide_eq_true this.2
  rw [← hpk]
  exact hne

/-- Attached referrals come from a bucket in the mapping. -/
theorem founderRefs_lookup {m : List (Cell × Bucket)} {row : SRow}
    (h : founderRefs m row ≠ []) :
    ∃ b, List.lookup (founderMatchedKey m row) m = some b ∧
      founderRefs m row = b.referrals := by
  rw [founderRefs] at h ⊢
  cases hl : List.lookup (founderMatchedKey m row) m with
  | none => rw [hl] at h; simp at h
  | some b => exact ⟨b, rfl, rfl⟩

/-- Unfolding of the founder loop on a row with an empty startup name. -/
theorem runFounders_cons_empty (fail : SRow → Option Cell) (row : SRow) (rest : List SRow)
    (m : List (Cell × Bucket)) (h : founderName row = []) :
    runFounders fail (row :: rest) m =
      ⟨(runFounders fail rest m).processed, (runFounders fail rest m).errors + 1,
       (runFounders fail rest m).claims,
       founderErrLog missingNameMsg :: (runFounders fail rest m).log,
       (runFounders fail rest m).mapping⟩ := by
  simp [runFounders, h]

/-- Unfolding of the founder loop on a named row whose external write fails. -/
theorem runFounders_cons_fail (fail : SRow → Option Cell) (row : SRow) (rest : List SRow)
    (m : List (Cell × Bucket)) (msg : Cell) (h : founderName row ≠ []) (hf : fail row = some msg) :
    runFounders fail (row :: rest) m =
      ⟨(runFounders fail rest (founderStepMap m row)).processed,
       (runFounders fail rest (founderStepMap m row)).errors + 1,
       ⟨row, founderName row, founderMatchedKey m row, founderRefs m row⟩ ::
         (runFounders fail rest (founderStepMap m row)).claims,
       founderErrLog msg :: (runFounders fail rest (founderStepMap m row)).log,
       (runFounders fail rest (founderStepMap m row)).mapping⟩ := by
  simp [runFounders, h, hf]

/-- Unfolding of the founder loop on a named row processed without error. -/
theorem runFounders_cons_ok (fail : SRow → Option Cell) (row : SRow) (rest : List SRow)
    (m : List (Cell × Bucket)) (h : founderName row ≠ []) (hf : fail row = none) :
    runFounders fail (row :: rest) m =
      ⟨(runFounders fail rest (founderStepMap m row)).processed + 1,
       (runFounders fail rest (founderStepMap m row)).errors,
       ⟨row, founderName row, founderMatchedKey m row, founderRefs m row⟩ ::
         (runFounders fail rest (founderStepMap m row)).claims,
       (runFounders fail rest (founderStepMap m row)).log,
       (runFounders fail rest (founderStepMap m row)).mapping⟩ := by
  simp [runFounders, h, hf]

/-- Unfolding of `claimedOf` over a cons of records. -/
theorem claimedOf_cons (cl : Claimed) (cls : List Claimed) :
    claimedOf (cl :: cls) =
      if cl.matchedReferrals = [] then claimedOf cls
      else cl.matchedKey :: claimedOf cls := by
  rw [claimedOf, List.filter_cons]
  by_cases h : cl.matchedReferrals = []
  · rw [if_pos h, if_neg (by simp [h])]
    rfl
  · rw [if_neg h, if_pos (by simp [List.isEmpty_iff, h])]
    rfl

/-- `claimedKeys` reads the claims field. -/
theorem claimedKeys_def (st : FounderRun) : claimedKeys st = claimedOf st.claims := rfl

/-- Keys of the post-step mapping come from the pre-step mapping. -/
theorem keys_founderStepMap_sub {m : List (Cell × Bucket)} {row : SRow} {k : Cell}
    (h : k ∈ (founderStepMap m row).map Prod.fst) : k ∈ m.map Prod.fst := by
  rw [founderStepMap] at h
  split at h
  · exact h
  · exact (mem_keys_eraseKey h).1

/-- Common shape of the founder loop on a named row: the produced
reconciliation record is prepended to the claims (whether or not the row's
external write fails), and the final mapping is that of the rest of the run
from the post-step mapping. -/
theorem runFounders_cons_named (fail : SRow → Option Cell) (row : SRow) (rest : List SRow)
    (m : List (Cell × Bucket)) (h : founderName row ≠ []) :
    (runFounders fail (row :: rest) m).mapping =
      (runFounders fail rest (founderStepMap m row)).mapping ∧
    (runFounders fail (row :: rest) m).claims =
      (⟨row, founderName row, founderMatchedKey m row, founderRefs m row⟩ : Claimed) ::
        (runFounders fail rest (founderStepMap m row)).claims := by
  cases hfail : fail row with
  | none => rw [runFounders_cons_ok fail row rest m h hfail]; exact ⟨rfl, rfl⟩
  | some msg => rw [runFounders_cons_fail fail row rest m msg h hfail]; exact ⟨rfl, rfl⟩

/-- The referral mapping left after a founder run is the filter of the
incoming mapping to the keys never claimed during the run. -/
theorem runFounders_mapping (fail : SRow → Option Cell) :
    ∀ (rows : List SRow) (m : List (Cell × Bucket)),
    (runFounders fail rows m).mapping =
      m.filter (fun p => decide (p.1 ∉ claimedKeys (runFounders fail rows m))) := by
  intro rows
  induction rows with
  | nil =>
    intro m
    show m = m.filter fun p => decide (p.1 ∉ claimedKeys (runFounders fail [] m))
    have : claimedKeys (runFounders fail [] m) = [] := rfl
    rw [this]
    simp
  | cons row rest ih =>
    intro m
    by_cases hname : founderName row = []
    · rw [runFounders_cons_empty fail row rest m hname]
      exact ih m
    · obtain ⟨hmap, hclaims⟩ := runFounders_cons_named fail row rest m hname
      rw [hmap]
      have hck : claimedKeys (runFounders fail (row :: rest) m) =
          if founderRefs m row = []
          then claimedKeys (runFounders fail rest (founderStepMap m row))
          else founderMatchedKey m row ::
            claimedKeys (runFounders fail rest (founderStepMap m row)) := by
        rw [claimedKeys_def, hclaims, claimedOf_cons]
        rfl
      by_cases hrefs : founderRefs m row = []
      · rw [hck, if_pos hrefs]
        have hstep : founderStepMap m row = m := by rw [founderStepMap, if_pos hrefs]
        rw [hstep]
        exact ih m
      · rw [hck, if_neg hrefs]
        have hstep : founderStepMap m row = eraseKey m (founderMatchedKey m row) := by
          rw [founderStepMap, if_neg hrefs]
        rw [hstep]
        rw [ih (eraseKey m (founderMatchedKey m row))]
        rw [eraseKey, List.filter_filter]
        apply List.filter_congr
        intro a _
        by_cases h1 : a.1 = founderMatchedKey m row <;>
          by_cases h2 : a.1 ∈ claimedKeys
            (runFounders fail rest (eraseKey m (founderMatchedKey m row))) <;>
          simp [h1, h2]

/-- Every key claimed during a run is a key of the incoming mapping. -/
theorem runFounders_claimed_sub (fail : SRow → Option Cell) :
    ∀ (rows : List SRow) (m : List (Cell × Bucket)) (k : Cell),
    k ∈ claimedKeys (runFounders fail rows m) → k ∈ m.map Prod.fst := by
  intro rows
  induction rows with
  | nil =>
    intro m k h
    have hnil : claimedKeys (runFounders fail [] m) = [] := rfl
    rw [hnil] at h
    exact absurd h (List.not_mem_nil k)
  | cons row rest ih =>
    intro m k h
    by_cases hname : founderName row = []
    · rw [runFounders_cons_empty fail row rest m hname] at h
      exact ih m k h
    · obtain ⟨_, hclaims⟩ := runFounders_cons_named fail row rest m hname
      rw [claimedKeys_def, hclaims, claimedOf_cons] at h
      by_cases hrefs : founderRefs m row = []
      · rw [if_pos hrefs] at h
        exact keys_founderStepMap_sub (ih (founderStepMap m row) k h)
      · rw [if_neg hrefs] at h
        rcases List.mem_cons.mp h with h' | h'
        · obtain ⟨b, hb, _⟩ := founderRefs_lookup hrefs
          exact h' ▸ lookup_mem_keys hb
        · exact keys_founderStepMap_sub (ih (founderStepMap m row) k h')

/-- No key is claimed twice during a run. -/
theorem runFounders_claimed_nodup (fail : SRow → Option Cell) :
    ∀ (rows : List SRow) (m : List (Cell × Bucket)),
    (claimedKeys (runFounders fail rows m)).Nodup := by
  intro rows
  induction rows with
  | nil =>
    intro m
    have : claimedKeys (runFounders fail [] m) = [] := rfl
    rw [this]
    exact List.nodup_nil
  | cons row rest ih =>
    intro m
    by_cases hname : founderName row = []
    · rw [runFounders_cons_empty fail row rest m hname]
      exact ih m
    · obtain ⟨_, hclaims⟩ := runFounders_cons_named fail row rest m hname
      rw [claimedKeys_def, hclaims, claimedOf_cons]
      by_cases hrefs : founderRefs m row = []
      · rw [if_pos hrefs]
        exact ih (founderStepMap m row)
      · rw [if_neg hrefs]
        rw [List.nodup_cons]
        refine ⟨?_, ih (founderStepMap m row)⟩
        intro hmem
        have hk := runFounders_claimed_sub fail rest (founderStepMap m row)
          (founderMatchedKey m row) hmem
        rw [founderStepMap, if_neg hrefs] at hk
        exact absurd rfl (mem_keys_eraseKey hk).2

/-- C1: claim semantics of the reconciliation run.  No referral bucket is
attached to more than one founder row's reconciliation record (the claimed
keys of a run are pairwise distinct, so the first row in source order to
claim a bucket owns it); claiming physically removes the key from the mapping
at the moment of the claim (the post-step mapping is the erasure and no
longer resolves the key); and after all rows are processed the mapping
contains exactly the buckets whose keys were never claimed. -/
theorem founder_claim_semantics (fail : SRow → Option Cell)
    (founderRows referralRows : List SRow) :
    (claimedKeys (processFounders fail founderRows referralRows)).Nodup ∧
    (∀ (m : List (Cell × Bucket)) (row : SRow), founderRefs m row ≠ [] →
      founderStepMap m row = eraseKey m (founderMatchedKey m row) ∧
      List.lookup (founderMatchedKey m row) (founderStepMap m row) = none) ∧
    (processFounders fail founderRows referralRows).mapping =
      (createReferralMapping referralRows).filter
        (fun p => decide (p.1 ∉ claimedKeys (processFounders fail founderRows referralRows))) := by
  refine ⟨?_, ?_, ?_⟩
  · exact runFounders_claimed_nodup fail founderRows (createReferralMapping referralRows)
  · intro m row h
    have hstep : founderStepMap m row = eraseKey m (founderMatchedKey m row) := by
      rw [founderStepMap, if_neg h]
    exact ⟨hstep, by rw [hstep]; exact lookup_eraseKey m (founderMatchedKey m row)⟩
  · exact runFounders_mapping fail founderRows (createReferralMapping referralRows)

/-- Witness for C1: a founder row claiming the single bucket of a one-referral
index; the claimed key is erased by the step and no longer resolves. -/
theorem founder_claim_semantics_witness :
    founderStepMap (createReferralMapping [List.replicate 9 ([] : Cell) ++ [['A', 'c', 'm', 'e']]])
        (List.replicate 73 ([] : Cell) ++ [['A', 'c', 'm', 'e']]) =
      eraseKey (createReferralMapping [List.replicate 9 ([] : Cell) ++ [['A', 'c', 'm', 'e']]])
        (founderMatchedKey
          (createReferralMapping [List.replicate 9 ([] : Cell) ++ [['A', 'c', 'm', 'e']]])
          (List.replicate 73 ([] : Cell) ++ [['A', 'c', 'm', 'e']])) ∧
    List.lookup
      (founderMatchedKey
        (createReferralMapping [List.replicate 9 ([] : Cell) ++ [['A', 'c', 'm', 'e']]])
        (List.replicate 73 ([] : Cell) ++ [['A', 'c', 'm', 'e']]))
      (founderStepMap (createReferralMapping [List.replicate 9 ([] : Cell) ++ [['A', 'c', 'm', 'e']]])
        (List.replicate 73 ([] : Cell) ++ [['A', 'c', 'm', 'e']])) = none :=
  (founder_claim_semantics (fun _ => none)
      [List.replicate 73 ([] : Cell) ++ [['A', 'c', 'm', 'e']]]
      [List.replicate 9 ([] : Cell) ++ [['A', 'c', 'm', 'e']]]).2.1
    (createReferralMapping [List.replicate 9 ([] : Cell) ++ [['A', 'c', 'm', 'e']]])
    (List.replicate 73 ([] : Cell) ++ [['A', 'c', 'm', 'e']])
    (by decide)

/-- Accounting of the founder loop: a thrown error never aborts the run, the
counters account for every input row, the error count is exactly the number
of failing rows, every named row is reconciled in order, and each caught
error appends one log line of the fixed tag followed by the error message. -/
theorem runFounders_accounting (fail : SRow → Option Cell) (rows : List SRow)
    (m : List (Cell × Bucket)) :
    (runFounders fail rows m).processed + (runFounders fail rows m).errors = rows.length ∧
    (runFounders fail rows m).errors =
      (rows.filter (fun r => decide (founderName r = []) || (fail r).isSome)).length ∧
    ((runFounders fail rows m).claims).map Claimed.row =
      rows.filter (fun r => decide (founderName r ≠ [])) ∧
    (runFounders fail rows m).log =
      rows.filterMap (fun r =>
        if founderName r = [] then some (founderErrLog missingNameMsg)
        else (fail r).map founderErrLog) := by
  induction rows generalizing m with
  | nil => exact ⟨rfl, rfl, rfl, rfl⟩
  | cons row rest ih =>
    by_cases hname : founderName row = []
    · obtain ⟨ih1, ih2, ih3, ih4⟩ := ih m
      rw [runFounders_cons_empty fail row rest m hname]
      refine ⟨?_, ?_, ?_, ?_⟩
      · show (runFounders fail rest m).processed + ((runFounders fail rest m).errors + 1) =
          rest.length + 1
        omega
      · show (runFounders fail rest m).errors + 1 = _
        rw [List.filter_cons, if_pos (by simp [hname])]
        rw [List.length_cons]
        omega
      · show ((runFounders fail rest m).claims).map Claimed.row = _
        rw [List.filter_cons, if_neg (by simp [hname])]
        exact ih3
      · show founderErrLog missingNameMsg :: (runFounders fail rest m).log = _
        rw [List.filterMap_cons, if_pos hname]
        rw [ih4]
    · obtain ⟨ih1, ih2, ih3, ih4⟩ := ih (founderStepMap m row)
      cases hfail : fail row with
      | none =>
        rw [runFounders_cons_ok fail row rest m hname hfail]
        refine ⟨?_, ?_, ?_, ?_⟩
        · show (runFounders fail rest (founderStepMap m row)).processed + 1 +
            (runFounders fail rest (founderStepMap m row)).errors = rest.length + 1
          omega
        · show (runFounders fail rest (founderStepMap m row)).errors = _
          rw [List.filter_cons, if_neg (by simp [hname, hfail])]
          exact ih2
        · show row :: ((runFounders fail rest (founderStepMap m row)).claims).map Claimed.row = _
          rw [List.filter_cons, if_pos (by simp [hname])]
          rw [ih3]
        · show (runFounders fail rest (founderStepMap m row)).log = _
          rw [List.filterMap_cons, if_neg hname, hfail]
          exact ih4
      | some msg =>
        rw [runFounders_cons_fail fail row rest m msg hname hfail]
        refine ⟨?_, ?_, ?_, ?_⟩
        · show (runFounders fail rest (founderStepMap m row)).processed +
            ((runFounders fail rest (founderStepMap m row)).errors + 1) = rest.length + 1
          omega
        · show (runFounders fail rest (founderStepMap m row)).errors + 1 = _
          rw [List.filter_cons, if_pos (by simp [hfail])]
          rw [List.length_cons]
          omega
        · show row :: ((runFounders fail rest (founderStepMap m row)).claims).map Claimed.row = _
          rw [List.filter_cons, if_pos (by simp [hname])]
          rw [ih3]
        · show founderErrLog msg :: (runFounders fail rest (founderStepMap m row)).log = _
          rw [List.filterMap_cons, if_neg hname, hfail]
          rw [ih4]
          rfl

/-- Accounting of the searcher loop: a thrown error never aborts the run,
the counters account for every input row, the error count is exactly the
number of failing rows, every named row is reconciled in order, and each
caught error appends one log line of the fixed tag followed by the error
message. -/
theorem runSearchers_accounting (fail : SRow → Option Cell) (refs : List SRow)
    (rows : List SRow) :
    (runSearchers fail refs rows).processed + (runSearchers fail refs rows).errors =
      rows.length ∧
    (runSearchers fail refs rows).errors =
      (rows.filter (fun r => decide (searcherNameOf r = []) || (fail r).isSome)).length ∧
    ((runSearchers fail refs rows).claims).map SearcherClaimed.row =
      rows.filter (fun r => decide (searcherNameOf r ≠ [])) ∧
    (runSearchers fail refs rows).log =
      rows.filterMap (fun r =>
        if searcherNameOf r = [] then some (searcherErrLog missingSearcherNameMsg)
        else (fail r).map searcherErrLog) := by
  induction rows with
  | nil => exact ⟨rfl, rfl, rfl, rfl⟩
  | cons row rest ih =>
    obtain ⟨ih1, ih2, ih3, ih4⟩ := ih
    by_cases hname : searcherNameOf row = []
    · rw [show runSearchers fail refs (row :: rest) =
          ⟨(runSearchers fail refs rest).processed, (runSearchers fail refs rest).errors + 1,
           (runSearchers fail refs rest).claims,
           searcherErrLog missingSearcherNameMsg :: (runSearchers fail refs rest).log⟩
        from by simp [runSearchers, hname]]
      refine ⟨?_, ?_, ?_, ?_⟩
      · show (runSearchers fail refs rest).processed +
          ((runSearchers fail refs rest).errors + 1) = rest.length + 1
        omega
      · show (runSearchers fail refs rest).errors + 1 = _
        rw [List.filter_cons, if_pos (by simp [hname])]
        rw [List.length_cons]
        omega
      · show ((runSearchers fail refs rest).claims).map SearcherClaimed.row = _
        rw [List.filter_cons, if_neg (by simp [hname])]
        exact ih3
      · show searcherErrLog missingSearcherNameMsg :: (runSearchers fail refs rest).log = _
        rw [List.filterMap_cons, if_pos hname]
        rw [ih4]
    · cases hfail : fail row with
      | none =>
        rw [show runSearchers fail refs (row :: rest) =
            ⟨(runSearchers fail refs rest).processed + 1, (runSearchers fail refs rest).errors,
             (⟨row, searcherNameOf row, searcherMatchedReferrals row refs⟩ : SearcherClaimed) ::
               (runSearchers fail refs rest).claims,
             (runSearchers fail refs rest).log⟩
          from by simp [runSearchers, hname, hfail]]
        refine ⟨?_, ?_, ?_, ?_⟩
        · show (runSearchers fail refs rest).processed + 1 +
            (runSearchers fail refs rest).errors = rest.length + 1
          omega
        · show (runSearchers fail refs rest).errors = _
          rw [List.filter_cons, if_neg (by simp [hname, hfail])]
          exact ih2
        · show row :: ((runSearchers fail refs rest).claims).map SearcherClaimed.row = _
          rw [List.filter_cons, if_pos (by simp [hname])]
          rw [ih3]
        · show (runSearchers fail refs rest).log = _
          rw [List.filterMap_cons, if_neg hname, hfail]
          exact ih4
      | some msg =>
        rw [show runSearchers fail refs (row :: rest) =
            ⟨(runSearchers fail refs rest).processed, (runSearchers fail refs rest).errors + 1,
             (⟨row, searcherNameOf row, searcherMatchedReferrals row refs⟩ : SearcherClaimed) ::
               (runSearchers fail refs rest).claims,
             searcherErrLog msg :: (runSearchers fail refs rest).log⟩
          from by simp [runSearchers, hname, hfail]]
        refine ⟨?_, ?_, ?_, ?_⟩
        · show (runSearchers fail refs rest).processed +
            ((runSearchers fail refs rest).errors + 1) = rest.length + 1
          omega
        · show (runSearchers fail refs rest).errors + 1 = _
          rw [List.filter_cons, if_pos (by simp [hfail])]
          rw [List.length_cons]
          omega
        · show row :: ((runSearchers fail refs rest).claims).map SearcherClaimed.row = _
          rw [List.filter_cons, if_pos (by simp [hname])]
          rw [ih3]
        · show searcherErrLog msg :: (runSearchers fail refs rest).log = _
          rw [List.filterMap_cons, if_neg hname, hfail]
          rw [ih4]
          rfl

/-- C2 (amended): per-item failure isolation of both primary-row loops,
`processSearchers` and `processFounders`.  In each loop a thrown error never
aborts the run: the final counters account for every input row
(`processed + errors = length`), the error count is exactly the number of
failing rows, every named row is reconciled (its record appears, in order,
whether or not its write failed), and each caught error appends one log line
consisting of the loop's fixed tag followed by the error message (the
entity's display name is not part of the logged line). -/
theorem primary_loop_error_isolation (fail : SRow → Option Cell)
    (founderRows searcherRows refRows : List SRow) (m : List (Cell × Bucket)) :
    ((runFounders fail founderRows m).processed + (runFounders fail founderRows m).errors =
        founderRows.length ∧
      (runFounders fail founderRows m).errors =
        (founderRows.filter (fun r => decide (founderName r = []) || (fail r).isSome)).length ∧
      ((runFounders fail founderRows m).claims).map Claimed.row =
        founderRows.filter (fun r => decide (founderName r ≠ [])) ∧
      (runFounders fail founderRows m).log =
        founderRows.filterMap (fun r =>
          if founderName r = [] then some (founderErrLog missingNameMsg)
          else (fail r).map founderErrLog)) ∧
    ((runSearchers fail refRows searcherRows).processed +
        (runSearchers fail refRows searcherRows).errors = searcherRows.length ∧
      (runSearchers fail refRows searcherRows).errors =
        (searcherRows.filter (fun r => decide (searcherNameOf r = []) || (fail r).isSome)).length ∧
      ((runSearchers fail refRows searcherRows).claims).map SearcherClaimed.row =
        searcherRows.filter (fun r => decide (searcherNameOf r ≠ [])) ∧
      (runSearchers fail refRows searcherRows).log =
        searcherRows.filterMap (fun r =>
          if searcherNameOf r = [] then some (searcherErrLog missingSearcherNameMsg)
          else (fail r).map searcherErrLog)) :=
  ⟨runFounders_accounting fail founderRows m, runSearchers_accounting fail refRows searcherRows⟩

/-- C2 counterexample: in both loops, a row with display name `Acme` whose
write fails with message `boom` is caught and counted, but the logged line
is the loop's fixed tag followed by the error message and does not contain
the entity's display name, contrary to the claim that the error is logged
with the entity's display name. -/
theorem primary_error_log_cex :
    (runFounders (fun _ => some ['b', 'o', 'o', 'm'])
      [List.replicate 73 ([] : Cell) ++ [['A', 'c', 'm', 'e']]] []).errors = 1 ∧
    (runFounders (fun _ => some ['b', 'o', 'o', 'm'])
      [List.replicate 73 ([] : Cell) ++ [['A', 'c', 'm', 'e']]] []).log =
      [founderErrLog ['b', 'o', 'o', 'm']] ∧
    founderName (List.replicate 73 ([] : Cell) ++ [['A', 'c', 'm', 'e']]) =
      ['A', 'c', 'm', 'e'] ∧
    ¬ (['A', 'c', 'm', 'e'] <:+: founderErrLog ['b', 'o', 'o', 'm']) ∧
    (runSearchers (fun _ => some ['b', 'o', 'o', 'm']) []
      [List.replicate 37 ([] : Cell) ++ [['A', 'c', 'm', 'e']]]).errors = 1 ∧
    (runSearchers (fun _ => some ['b', 'o', 'o', 'm']) []
      [List.replicate 37 ([] : Cell) ++ [['A', 'c', 'm', 'e']]]).log =
      [searcherErrLog ['b', 'o', 'o', 'm']] ∧
    searcherNameOf (List.replicate 37 ([] : Cell) ++ [['A', 'c', 'm', 'e']]) =
      ['A', 'c', 'm', 'e'] ∧
    ¬ (['A', 'c', 'm', 'e'] <:+: searcherErrLog ['b', 'o', 'o', 'm']) :=
  ⟨by decide, by decide, by decide, by decide, by decide, by decide, by decide, by decide⟩

/-- C3 (amended): founder reconciliation attaches by fuzzy matching within
distance 2, searcher reconciliation only by exact normalised-name equality.
For a founder row with a nonempty normalised name over an index of normalised
keys: if some key is within Levenshtein distance 2, the row attaches the
referral rows of the bucket of the minimum-distance key (first such key in
iteration order); if no key is within distance 2, the row attaches zero
referrals and the step is not an error.  A searcher row attaches a referral
row only when the referral's target-name cell normalises to exactly the
searcher's normalised name. -/
theorem reconcile_attach_within_two (m : List (Cell × Bucket)) (row : SRow)
    (hkeys : ∀ k ∈ m.map Prod.fst, IsNormKey k) (hkey : founderKeyOf row ≠ []) :
    ((∃ k ∈ m.map Prod.fst, lev (founderKeyOf row) k ≤ 2) →
      ∃ k b, k ∈ m.map Prod.fst ∧ lev (founderKeyOf row) k ≤ 2 ∧
        (∀ k' ∈ m.map Prod.fst, lev (founderKeyOf row) k ≤ lev (founderKeyOf row) k') ∧
        founderMatchedKey m row = k ∧ List.lookup k m = some b ∧
        founderRefs m row = b.referrals) ∧
    ((∀ k ∈ m.map Prod.fst, 2 < lev (founderKeyOf row) k) →
      founderRefs m row = []) ∧
    (∀ (srow rrow : SRow) (rs : List SRow), rrow ∈ searcherMatchedReferrals srow rs →
      normalizeTextL (cellAt rrow 22) = normalizeTextL (jsTrim (cellAt srow 37))) := by
  have hfix : normalizeTextL (founderKeyOf row) = founderKeyOf row :=
    normalizeTextL_idem (founderName row)
  have hscore : ∀ k ∈ m.map Prod.fst, scoreOf (founderKeyOf row) k = lev (founderKeyOf row) k := by
    intro k hk
    rw [scoreOf, hfix, (hkeys k hk).2]
  have hsearcher : ∀ (srow rrow : SRow) (rs : List SRow),
      rrow ∈ searcherMatchedReferrals srow rs →
      normalizeTextL (cellAt rrow 22) = normalizeTextL (jsTrim (cellAt srow 37)) := by
    intro srow rrow rs hmem
    rw [searcherMatchedReferrals, findMatchingReferrals] at hmem
    split at hmem
    · exact absurd hmem (List.not_mem_nil rrow)
    · have hf := (List.mem_filter.mp hmem).2
      split at hf
      · cases hf
      · exact of_decide_eq_true hf
  rcases findBestMatch_cases (founderKeyOf row) (m.map Prod.fst) 2 hkey
      (fun c hc => (hkeys c hc).1) with ⟨hnone, hfar⟩ |
      ⟨pre, r, post, hdec, hres, hle, hmin, hstrict⟩
  · refine ⟨?_, ?_, hsearcher⟩
    · intro ⟨k, hk, hkle⟩
      have := hfar k hk
      rw [hscore k hk] at this
      omega
    · intro _
      have hmk : founderMatchedKey m row = founderKeyOf row := by
        rw [founderMatchedKey, hnone]
        rfl
      rw [founderRefs, hmk]
      cases hl : List.lookup (founderKeyOf row) m with
      | none => rfl
      | some b =>
        exfalso
        have hmem := lookup_mem_keys hl
        have := hfar (founderKeyOf row) hmem
        rw [hscore (founderKeyOf row) hmem] at this
        have hself := lev_self (founderKeyOf row)
        omega
  · have hrmem : r ∈ m.map Prod.fst := by rw [hdec]; simp
    have hmk : founderMatchedKey m row = r := by
      rw [founderMatchedKey, hres]
      rfl
    obtain ⟨b, hb⟩ := keys_mem_lookup hrmem
    refine ⟨?_, ?_, hsearcher⟩
    · intro _
      refine ⟨r, b, hrmem, ?_, ?_, hmk, hb, ?_⟩
      · rw [hscore r hrmem] at hle
        exact hle
      · intro k' hk'
        have := hmin k' hk'
        rw [hscore r hrmem, hscore k' hk'] at this
        exact this
      · rw [founderRefs, hmk, hb]
    · intro hfar2
      exfalso
      have := hfar2 r hrmem
      rw [hscore r hrmem] at hle
      omega

/-- Witness for C3: founder row `Acme Corp` against a referral index built
from one referral targeting `Acme Cor` (edit distance 1): the bucket is
attached. -/
theorem reconcile_attach_within_two_witness :
    ∃ k b,
      k ∈ (createReferralMapping
        [List.replicate 9 ([] : Cell) ++ [['A', 'c', 'm', 'e', ' ', 'C', 'o', 'r']]]).map Prod.fst ∧
      lev (founderKeyOf
        (List.replicate 73 ([] : Cell) ++ [['A', 'c', 'm', 'e', ' ', 'C', 'o', 'r', 'p']])) k ≤ 2 ∧
      (∀ k' ∈ (createReferralMapping
          [List.replicate 9 ([] : Cell) ++ [['A', 'c', 'm', 'e', ' ', 'C', 'o', 'r']]]).map Prod.fst,
        lev (founderKeyOf
          (List.replicate 73 ([] : Cell) ++ [['A', 'c', 'm', 'e', ' ', 'C', 'o', 'r', 'p']])) k ≤
        lev (founderKeyOf
          (List.replicate 73 ([] : Cell) ++ [['A', 'c', 'm', 'e', ' ', 'C', 'o', 'r', 'p']])) k') ∧
      founderMatchedKey
        (createReferralMapping
          [List.replicate 9 ([] : Cell) ++ [['A', 'c', 'm', 'e', ' ', 'C', 'o', 'r']]])
        (List.replicate 73 ([] : Cell) ++ [['A', 'c', 'm', 'e', ' ', 'C', 'o', 'r', 'p']]) = k ∧
      List.lookup k (createReferralMapping
        [List.replicate 9 ([] : Cell) ++ [['A', 'c', 'm', 'e', ' ', 'C', 'o', 'r']]]) = some b ∧
      founderRefs
        (createReferralMapping
          [List.replicate 9 ([] : Cell) ++ [['A', 'c', 'm', 'e', ' ', 'C', 'o', 'r']]])
        (List.replicate 73 ([] : Cell) ++ [['A', 'c', 'm', 'e', ' ', 'C', 'o', 'r', 'p']]) =
        b.referrals :=
  (reconcile_attach_within_two
    (createReferralMapping
      [List.replicate 9 ([] : Cell) ++ [['A', 'c', 'm', 'e', ' ', 'C', 'o', 'r']]])
    (List.replicate 73 ([] : Cell) ++ [['A', 'c', 'm', 'e', ' ', 'C', 'o', 'r', 'p']])
    (by intro k hk; fin_cases hk <;> exact ⟨by decide, by decide⟩)
    (by decide)).1 (by decide)

/-- C3 counterexample: searcher reconciliation does not fuzzy-match.  A
searcher row named `Acme Corp` and a referral row targeting `Acme Cor` are at
normalised edit distance 1 (within the claimed threshold 2), yet the searcher
engine attaches zero referrals, because `findMatchingReferrals` requires
exact equality of the normalised names. -/
theorem searcher_fuzzy_attach_cex :
    lev (normalizeTextL (jsTrim (cellAt
        (List.replicate 37 ([] : Cell) ++ [['A', 'c', 'm', 'e', ' ', 'C', 'o', 'r', 'p']]) 37)))
      (normalizeTextL (cellAt
        (List.replicate 22 ([] : Cell) ++ [['A', 'c', 'm', 'e', ' ', 'C', 'o', 'r']]) 22)) = 1 ∧
    searcherMatchedReferrals
      (List.replicate 37 ([] : Cell) ++ [['A', 'c', 'm', 'e', ' ', 'C', 'o', 'r', 'p']])
      [List.replicate 22 ([] : Cell) ++ [['A', 'c', 'm', 'e', ' ', 'C', 'o', 'r']]] = [] :=
  ⟨by decide, by decide⟩

/-- The filled-field count is bounded by the number of indices counted. -/
theorem getFilledCount_foldl_le (row : SRow) :
    ∀ (idx : List Nat) (n : Nat),
    idx.foldl (fun count i => count + if jsTrim (cellAt row i) = [] then 0 else 1) n ≤
      n + idx.length := by
  intro idx
  induction idx with
  | nil => intro n; simp
  | cons i t ih =>
    intro n
    rw [List.foldl_cons, List.length_cons]
    calc t.foldl (fun count i => count + if jsTrim (cellAt row i) = [] then 0 else 1)
          (n + if jsTrim (cellAt row i) = [] then 0 else 1) ≤
        (n + if jsTrim (cellAt row i) = [] then 0 else 1) + t.length := ih _
      _ ≤ n + (t.length + 1) := by split <;> omega

/-- The filled-field count never exceeds the total field count. -/
theorem getFilledCount_le (row : SRow) (idx : List Nat) :
    getFilledCount row idx ≤ idx.length := by
  have := getFilledCount_foldl_le row idx 0
  simpa [getFilledCount] using this

/-- The required-field index list has length 50 plus 11 per declared team
member. -/
theorem founderRelevantIndices_length (row : SRow) :
    (founderRelevantIndices row).length = 50 + 11 * teamMemberCount row := by
  rw [founderRelevantIndices, List.length_append, List.length_map, List.length_range]
  congr 1
  rw [List.length_flatMap]
  have hmap : List.map (List.length ∘ fun i => List.map (fun j => 119 + i * 11 + j) (List.range 11))
      (List.range (teamMemberCount row)) = List.replicate (teamMemberCount row) 11 := by
    apply List.eq_replicate.mpr
    constructor
    · rw [List.length_map, List.length_range]
    · intro b hb
      obtain ⟨i, _, hi⟩ := List.mem_map.mp hb
      simp only [Function.comp, List.length_map, List.length_range] at hi
      exact hi.symm
  rw [hmap, List.sum_replicate, smul_eq_mul, Nat.mul_comm]

/-- C6: for every complete founder row, the completion percentage equals
round(100 · filled / total) over the category-fixed index list 66 to 115
extended by one 11-index block per declared team member (count read from
cell 118), and the result lies between 0 and 100. -/
theorem completionPercent_formula (row : SRow) (hrow : founderName row ≠ []) :
    founderRelevantIndices row =
      ((List.range 50).map (fun i => 66 + i)) ++
        (List.range (teamMemberCount row)).flatMap
          (fun i => (List.range 11).map (fun j => 119 + i * 11 + j)) ∧
    completionPercent row =
      jsRound (100 * (getFilledCount row (founderRelevantIndices row) : ℚ) /
        ((founderRelevantIndices row).length : ℚ)) ∧
    0 ≤ completionPercent row ∧ completionPercent row ≤ 100 := by
  have hlen : (founderRelevantIndices row).length = 50 + 11 * teamMemberCount row :=
    founderRelevantIndices_length row
  have hne : (founderRelevantIndices row).length ≠ 0 := by omega
  have hfle : getFilledCount row (founderRelevantIndices row) ≤
      (founderRelevantIndices row).length := getFilledCount_le row _
  have htpos : (0 : ℚ) < ((founderRelevantIndices row).length : ℚ) := by
    exact_mod_cast Nat.pos_of_ne_zero hne
  have hq0 : (0 : ℚ) ≤ (getFilledCount row (founderRelevantIndices row) : ℚ) /
      ((founderRelevantIndices row).length : ℚ) * 100 := by positivity
  have hq100 : (getFilledCount row (founderRelevantIndices row) : ℚ) /
      ((founderRelevantIndices row).length : ℚ) * 100 ≤ 100 := by
    have hdiv : (getFilledCount row (founderRelevantIndices row) : ℚ) /
        ((founderRelevantIndices row).length : ℚ) ≤ 1 := by
      rw [div_le_one htpos]
      exact_mod_cast hfle
    nlinarith
  have hval : completionPercent row =
      jsRound ((getFilledCount row (founderRelevantIndices row) : ℚ) /
        ((founderRelevantIndices row).length : ℚ) * 100) := by
    simp only [completionPercent]
    rw [if_neg hne]
  refine ⟨rfl, ?_, ?_, ?_⟩
  · rw [hval]
    congr 1
    rw [div_mul_eq_mul_div, mul_comm]
  · rw [hval, jsRound]
    rw [Int.le_floor]
    push_cast
    linarith
  · rw [hval, jsRound]
    have hlt : ⌊(getFilledCount row (founderRelevantIndices row) : ℚ) /
        ((founderRelevantIndices row).length : ℚ) * 100 + 1 / 2⌋ < 101 := by
      rw [Int.floor_lt]
      push_cast
      linarith
    omega

/-- Witness for C6: a complete founder row with one filled required cell and
no declared team members. -/
theorem completionPercent_formula_witness :
    founderRelevantIndices (List.replicate 73 ([] : Cell) ++ [['A', 'c', 'm', 'e']]) =
      ((List.range 50).map (fun i => 66 + i)) ++
        (List.range (teamMemberCount
          (List.replicate 73 ([] : Cell) ++ [['A', 'c', 'm', 'e']]))).flatMap
          (fun i => (List.range 11).map (fun j => 119 + i * 11 + j)) ∧
    completionPercent (List.replicate 73 ([] : Cell) ++ [['A', 'c', 'm', 'e']]) =
      jsRound (100 * (getFilledCount (List.replicate 73 ([] : Cell) ++ [['A', 'c', 'm', 'e']])
          (founderRelevantIndices (List.replicate 73 ([] : Cell) ++ [['A', 'c', 'm', 'e']])) : ℚ) /
        ((founderRelevantIndices
          (List.replicate 73 ([] : Cell) ++ [['A', 'c', 'm', 'e']])).length : ℚ)) ∧
    0 ≤ completionPercent (List.replicate 73 ([] : Cell) ++ [['A', 'c', 'm', 'e']]) ∧
    completionPercent (List.replicate 73 ([] : Cell) ++ [['A', 'c', 'm', 'e']]) ≤ 100 :=
  completionPercent_formula (List.replicate 73 ([] : Cell) ++ [['A', 'c', 'm', 'e']]) (by decide)
